import Mathlib

/-!
Verification model of the bank-statement analyzer service (`app.py`).

The service is a single pipeline: filename validation, temp-file creation,
PDF text extraction, prompt construction, one remote chat-completion call,
Markdown-fence normalization, `json.loads` parsing, and response shaping,
wrapped in try/except/finally.  Everything below is a shallow embedding of
that pipeline over `List Char` (Python `str`) and `List Nat` (bytes); the
PDF library and the remote completion API are oracles supplied as functions,
matching their published contracts (sequence of page texts or an exception;
completion text or an exception).
-/

/-- JSON whitespace, as in Python's `json` module regex `[ \t\n\r]*`. -/
def jws (c : Char) : Bool :=
  c == ' ' || c == '\t' || c == '\n' || c == '\r'

/-- Python `str.strip()` whitespace (ASCII fragment of `str.isspace`). -/
def pws (c : Char) : Bool :=
  c == ' ' || c == '\t' || c == '\n' || c == '\r' || c == '\x0b' || c == '\x0c'

/-- `str.strip()`: drop leading and trailing whitespace. -/
def pystrip (s : List Char) : List Char :=
  ((s.dropWhile pws).reverse.dropWhile pws).reverse

/-- ASCII `str.lower` on one character. -/
def lowerCh (c : Char) : Char :=
  if 'A' ≤ c ∧ c ≤ 'Z' then Char.ofNat (c.toNat + 32) else c

/-- ASCII `str.lower`. -/
def lowerL (s : List Char) : List Char :=
  s.map lowerCh

/-- `"\n".join(...)`. -/
def joinNL (ts : List (List Char)) : List Char :=
  List.intercalate ['\n'] ts

/-- One scan step of Python `str.replace` with a non-empty pattern:
replace non-overlapping occurrences left to right.  `fuel` bounds the scan
(one unit per character) so the recursion is structural. -/
def replAux (pat rep : List Char) : Nat → List Char → List Char
  | 0, s => s
  | _ + 1, [] => []
  | fuel + 1, c :: cs =>
    if pat.isPrefixOf (c :: cs) && !pat.isEmpty then
      rep ++ replAux pat rep fuel ((c :: cs).drop pat.length)
    else
      c :: replAux pat rep fuel cs

/-- Python `str.replace(pat, rep)` for a non-empty pattern. -/
def replaceL (pat rep s : List Char) : List Char :=
  replAux pat rep s.length s

/-- Whether `pat` occurs as a contiguous substring, by the same left-to-right
scan `replaceL` performs. -/
def containsSub (pat : List Char) : List Char → Bool
  | [] => pat.isEmpty
  | c :: cs => pat.isPrefixOf (c :: cs) || containsSub pat cs

/-- A parsed JSON value as `json.loads` builds it.  Numbers keep their
source token (the model does not re-implement floats); objects keep their
members in source order and lookups take the last binding, as a Python
`dict` built by successive assignment does. -/
inductive JValue where
  | null
  | jbool (b : Bool)
  | jnum (tok : List Char)
  | jstr (s : List Char)
  | jarr (elems : List JValue)
  | jobj (members : List (List Char × JValue))

/-- Hex digit test for `\uXXXX` escapes. -/
def isHex (c : Char) : Bool :=
  c.isDigit || ('a' ≤ c && c ≤ 'f') || ('A' ≤ c && c ≤ 'F')

/-- Value of one hex digit. -/
def hexVal (c : Char) : Nat :=
  if c.isDigit then c.toNat - '0'.toNat
  else if 'a' ≤ c && c ≤ 'f' then c.toNat - 'a'.toNat + 10
  else c.toNat - 'A'.toNat + 10

/-- Value of a 4-digit hex escape. -/
def hex4 (a b c d : Char) : Nat :=
  ((hexVal a * 16 + hexVal b) * 16 + hexVal c) * 16 + hexVal d

/-- The `BACKSLASH` table of `json`'s `scanstring`: the single-character
escapes it accepts, as the source's escape-to-character dict. -/
def escTable : List (Char × Char) :=
  [('"', '"'), ('\\', '\\'), ('/', '/'), ('b', Char.ofNat 8),
   ('f', Char.ofNat 12), ('n', '\n'), ('r', '\r'), ('t', '\t')]

/-- Lookup in the `BACKSLASH` escape dict (a `KeyError` is `none`). -/
def escChar (c : Char) : Option Char :=
  (escTable.find? fun p => p.1 == c).map Prod.snd

/-- High-surrogate test of the scanner's pairing logic. -/
def isHighSur (n : Nat) : Bool :=
  0xD800 ≤ n && n ≤ 0xDBFF

/-- Low-surrogate test of the scanner's pairing logic. -/
def isLowSur (n : Nat) : Bool :=
  0xDC00 ≤ n && n ≤ 0xDFFF

/-- The code point a surrogate pair combines to. -/
def surComb (n m : Nat) : Char :=
  Char.ofNat (0x10000 + (n - 0xD800) * 0x400 + (m - 0xDC00))

/-- `scanstring` after the opening quote: decoded characters and the rest of
the input after the closing quote.  Mirrors `json.decoder`: strict mode
rejects raw control characters and unknown escapes; `\uXXXX` needs four hex
digits; a high surrogate followed by `\u`+low surrogate combines.  `fuel`
(one unit per consumed chunk) keeps the recursion structural. -/
def strBodyAux : Nat → List Char → Option (List Char × List Char)
  | 0, _ => none
  | _ + 1, [] => none
  | fuel + 1, c :: cs =>
    if c == '"' then some ([], cs)
    else if c == '\\' then
      match cs with
      | [] => none
      | e :: cs2 =>
        if e == 'u' then
          match cs2 with
          | u1 :: u2 :: u3 :: u4 :: rest =>
            if isHex u1 && isHex u2 && isHex u3 && isHex u4 then
              if isHighSur (hex4 u1 u2 u3 u4) then
                if rest.headD ' ' == '\\' && rest.tail.headD ' ' == 'u' then
                  match rest.tail.tail with
                  | g1 :: g2 :: g3 :: g4 :: rest3 =>
                    if isHex g1 && isHex g2 && isHex g3 && isHex g4 then
                      if isLowSur (hex4 g1 g2 g3 g4) then
                        (strBodyAux fuel rest3).map fun p =>
                          (surComb (hex4 u1 u2 u3 u4) (hex4 g1 g2 g3 g4) :: p.1, p.2)
                      else
                        (strBodyAux fuel rest).map fun p =>
                          (Char.ofNat (hex4 u1 u2 u3 u4) :: p.1, p.2)
                    else none
                  | _ => none
                else
                  (strBodyAux fuel rest).map fun p => (Char.ofNat (hex4 u1 u2 u3 u4) :: p.1, p.2)
              else
                (strBodyAux fuel rest).map fun p => (Char.ofNat (hex4 u1 u2 u3 u4) :: p.1, p.2)
            else none
          | _ => none
        else
          match escChar e with
          | some d => (strBodyAux fuel cs2).map fun p => (d :: p.1, p.2)
          | none => none
    else if c.toNat < 0x20 then none
    else (strBodyAux fuel cs).map fun p => (c :: p.1, p.2)

/-- `scanstring` after the opening quote, with enough fuel for the input. -/
def parseStrBody (s : List Char) : Option (List Char × List Char) :=
  strBodyAux s.length s

/-- The integer part of `json`'s number regex `-?(0|[1-9]\d*)...`:
the matched digits and the rest. -/
def parseIntPart (s : List Char) : Option (List Char × List Char) :=
  if s.headD ' ' == '0' then some (['0'], s.tail)
  else if (s.headD ' ').isDigit then
    some (s.headD ' ' :: s.tail.takeWhile Char.isDigit, s.tail.dropWhile Char.isDigit)
  else none

/-- The optional fraction group `(\.\d+)?` (greedy; empty when absent). -/
def parseFracPart (s : List Char) : List Char × List Char :=
  if s.headD ' ' == '.' && (s.tail.headD ' ').isDigit then
    ('.' :: s.tail.takeWhile Char.isDigit, s.tail.dropWhile Char.isDigit)
  else ([], s)

/-- The optional exponent group `([eE][-+]?\d+)?` (greedy; empty when absent). -/
def parseExpPart (s : List Char) : List Char × List Char :=
  if s.headD ' ' == 'e' || s.headD ' ' == 'E' then
    if s.tail.headD ' ' == '+' || s.tail.headD ' ' == '-' then
      if (s.tail.tail.headD ' ').isDigit then
        (s.headD ' ' :: s.tail.headD ' ' :: s.tail.tail.takeWhile Char.isDigit,
          s.tail.tail.dropWhile Char.isDigit)
      else ([], s)
    else if (s.tail.headD ' ').isDigit then
      (s.headD ' ' :: s.tail.takeWhile Char.isDigit, s.tail.dropWhile Char.isDigit)
    else ([], s)
  else ([], s)

/-- `json`'s `NUMBER_RE` match at the head of the input: the matched token
and the rest, or `none` when the regex does not match. -/
def parseNum (s : List Char) : Option (List Char × List Char) :=
  let sign : List Char × List Char :=
    if s.headD ' ' == '-' then (['-'], s.tail) else ([], s)
  match parseIntPart sign.2 with
  | none => none
  | some (ip, r1) =>
    let fp := parseFracPart r1
    let ep := parseExpPart fp.2
    some (sign.1 ++ ip ++ fp.1 ++ ep.1, ep.2)

/-- Match an exact literal continuation (e.g. `rue` after `t`). -/
def expectL (p s : List Char) : Option (List Char) :=
  if p.isPrefixOf s then some (s.drop p.length) else none

/-- `JSONArray`'s element loop, entered at a value position (whitespace
already skipped).  `pv` scans one value; `fuel` bounds the number of
elements (one unit each), keeping the recursion structural. -/
def elemsLoop (pv : List Char → Option (JValue × List Char)) :
    Nat → List Char → Option (List JValue × List Char)
  | 0, _ => none
  | fuel + 1, s =>
    match pv s with
    | none => none
    | some (v, r) =>
      let r1 := r.dropWhile jws
      if r1.headD ' ' == ']' then some ([v], r1.tail)
      else if r1.headD ' ' == ',' then
        match elemsLoop pv fuel (r1.tail.dropWhile jws) with
        | some (vs, r3) => some (v :: vs, r3)
        | none => none
      else none

/-- `JSONObject`'s member loop, entered where a `"`-quoted key must start
(whitespace already skipped). -/
def membersLoop (pv : List Char → Option (JValue × List Char)) :
    Nat → List Char → Option (List (List Char × JValue) × List Char)
  | 0, _ => none
  | fuel + 1, s =>
    if s.headD ' ' == '"' then
      match parseStrBody s.tail with
      | none => none
      | some (k, r) =>
        let r1 := r.dropWhile jws
        if r1.headD ' ' == ':' then
          match pv (r1.tail.dropWhile jws) with
          | none => none
          | some (v, r3) =>
            let r4 := r3.dropWhile jws
            if r4.headD ' ' == '}' then some ([(k, v)], r4.tail)
            else if r4.headD ' ' == ',' then
              match membersLoop pv fuel (r4.tail.dropWhile jws) with
              | some (ms, r5) => some ((k, v) :: ms, r5)
              | none => none
            else none
        else none
    else none

/-- One step of `_scan_once`: dispatch on the head character, no leading
whitespace skip (the callers skip).  Literal order follows the scanner:
string, object, array, `null`/`true`/`false`, number, `NaN`, `Infinity`,
`-Infinity` (the number regex cannot match where the constants win, so
dispatching on the head character is equivalent). -/
def parseValCore (pv : List Char → Option (JValue × List Char)) (lf : Nat)
    (s : List Char) : Option (JValue × List Char) :=
  match s with
  | [] => none
  | ch :: cs =>
    if ch == '"' then (parseStrBody cs).map fun p => (JValue.jstr p.1, p.2)
    else if ch == '[' then
      let s1 := cs.dropWhile jws
      if s1.headD ' ' == ']' then some (JValue.jarr [], s1.tail)
      else (elemsLoop pv lf s1).map fun p => (JValue.jarr p.1, p.2)
    else if ch == '{' then
      let s1 := cs.dropWhile jws
      if s1.headD ' ' == '}' then some (JValue.jobj [], s1.tail)
      else (membersLoop pv lf s1).map fun p => (JValue.jobj p.1, p.2)
    else if ch == 't' then (expectL "rue".data cs).map fun r => (JValue.jbool true, r)
    else if ch == 'f' then (expectL "alse".data cs).map fun r => (JValue.jbool false, r)
    else if ch == 'n' then (expectL "ull".data cs).map fun r => (JValue.null, r)
    else if ch == 'N' then (expectL "aN".data cs).map fun r => (JValue.jnum "NaN".data, r)
    else if ch == 'I' then (expectL "nfinity".data cs).map fun r => (JValue.jnum "Infinity".data, r)
    else if ch == '-' then
      match expectL "Infinity".data cs with
      | some r => some (JValue.jnum "-Infinity".data, r)
      | none => (parseNum (ch :: cs)).map fun p => (JValue.jnum p.1, p.2)
    else (parseNum (ch :: cs)).map fun p => (JValue.jnum p.1, p.2)

/-- `_scan_once` with fuel: one unit per nesting level, and the same amount
handed to the element/member loops of that level. -/
def parseVal : Nat → List Char → Option (JValue × List Char)
  | 0, _ => none
  | f + 1, s => parseValCore (parseVal f) f s

/-- `json.loads`: skip leading whitespace, scan one value, require only
whitespace after it.  `s.length + 1` fuel always suffices: every nesting
level and every loop iteration consumes at least one character. -/
def json_loads (s : List Char) : Option JValue :=
  match parseVal (s.length + 1) (s.dropWhile jws) with
  | some (v, rest) => if (rest.dropWhile jws).isEmpty then some v else none
  | none => none

/-- What the PDF library (`PdfReader` + per-page `extract_text`) does with
the bytes at the given path: the per-page texts (possibly empty strings), or
a raised library exception with its message. -/
inductive PdfResult where
  | pages (texts : List (List Char))
  | err (msg : List Char)

/-- `extract_pdf_text` (app.py lines 97-124): keep truthy (non-empty) page
texts, join with newlines; a blank result raises HTTP 400 "No readable text
found in PDF." (re-raised as-is); any library exception is wrapped into
HTTP 500 "PDF extraction failed: <cause>".  `Except.error (status, detail)`
stands for a raised `HTTPException`. -/
def extract_pdf_text (res : PdfResult) : Except (Nat × List Char) (List Char) :=
  match res with
  | .err e => .error (500, "PDF extraction failed: ".data ++ e)
  | .pages ts =>
    let text_pages := ts.filter fun t => !t.isEmpty
    let final_text := joinNL text_pages
    if (pystrip final_text).isEmpty then
      .error (400, "No readable text found in PDF.".data)
    else
      .ok final_text

/-- The chat-completion request the handler sends: deployment as model,
a fixed system message, the built prompt, temperature 0. -/
structure ChatRequest where
  model : List Char
  systemContent : List Char
  userContent : List Char
  temperature : Nat

/-- The fixed system message (app.py line 206). -/
def systemMsg : List Char :=
  "You are a financial document parser that outputs strictly valid JSON.".data

/-- The prompt template before the statement text (app.py lines 174-197);
`\x7b`/`\x7d` are the literal braces of the embedded example schema. -/
def promptTemplate : List Char :=
  ("\nExtract structured data from this bank statement.\n\nReturn ONLY valid JSON matching this schema:\n\n\x7b\n  \"account_details\": \x7b\n    \"account_holder\": \"\",\n    \"account_number\": \"\",\n    \"account_type\": \"\",\n    \"currency\": \"\"\n  \x7d,\n  \"transactions\": [\n    \x7b\n      \"date\": \"\",\n      \"description\": \"\",\n      \"debit\": 0,\n      \"credit\": 0,\n      \"balance\": 0\n    \x7d\n  ]\n\x7d\n\nBank Statement:\n").data

/-- The f-string prompt: template, extracted text, trailing newline. -/
def buildPrompt (pdf_text : List Char) : List Char :=
  promptTemplate ++ pdf_text ++ ['\n']

/-- The handler's environment: the PDF library's behaviour on the uploaded
bytes, the remote completion API (deterministic stub or real), the unique
name `NamedTemporaryFile` picks for this request, and the configured
deployment identifier. -/
structure World where
  extract : List Nat → PdfResult
  complete : ChatRequest → Except (List Char) (List Char)
  tmpName : List Char
  deployment : List Char

/-- The uploaded file: `UploadFile.filename` (optional in the framework)
and the uploaded bytes. -/
structure UploadFileIn where
  filename : Option (List Char)
  content : List Nat

/-- The shaped success payload (app.py lines 227-231): the raw values read
off the parsed JSON by `.get("account_details")` (absent ↦ `None` = null)
and `.get("transactions", [])`, plus the fixed message.  The pydantic field
coercion of `BankStatementResponse` is abstracted as carrying the raw
values. -/
structure BankStatementResponse where
  account_details : JValue
  transactions : JValue
  message : List Char

/-- How one request ends: a shaped response, a raised `HTTPException`
(status, detail), or a non-HTTP Python exception escaping the handler. -/
inductive Outcome where
  | success (resp : BankStatementResponse)
  | httpError (statusCode : Nat) (detail : List Char)
  | pythonError (msg : List Char)

/-- Dict lookup: the last binding wins, as in a Python `dict` built by
successive key assignment. -/
def dictGet (members : List (List Char × JValue)) (k : List Char) : Option JValue :=
  match members with
  | [] => none
  | (k2, v) :: rest =>
    match dictGet rest k with
    | some v2 => some v2
    | none => if k2 == k then some v else none

/-- Whether the parsed value is a JSON object (a Python `dict`). -/
def isObjB : JValue → Bool
  | .jobj _ => true
  | _ => false

/-- Python type name of the parsed value, for the `AttributeError` a
non-dict raises on `.get`; number tokens with a fraction, exponent or
constant are floats, others ints. -/
def pyTypeName : JValue → List Char
  | .null => "NoneType".data
  | .jbool _ => "bool".data
  | .jnum tok =>
    if tok.any (fun c => c == '.' || c == 'e' || c == 'E') || tok == "NaN".data
        || tok == "Infinity".data || tok == "-Infinity".data then "float".data
    else "int".data
  | .jstr _ => "str".data
  | .jarr _ => "list".data
  | .jobj _ => "dict".data

/-- `str(e)` for the `AttributeError` raised by `parsed_json.get(...)` when
the parsed top-level value is not a dict. -/
def attrGetMsg (v : JValue) : List Char :=
  "\x27".data ++ pyTypeName v ++ "\x27 object has no attribute \x27get\x27".data

/-- Response normalization (app.py lines 213-217): strip the completion,
and when it starts with a code fence, delete every `` ```json `` and then
every `` ``` `` occurrence and strip again. -/
def normalizeCompletion (rawContent : List Char) : List Char :=
  let content := pystrip rawContent
  if "```".data.isPrefixOf content then
    pystrip (replaceL "```".data [] (replaceL "```json".data [] content))
  else content

/-- The fixed detail of the JSON-parse failure (app.py line 224). -/
def invalidJsonMsg : List Char := "Model returned invalid JSON.".data

/-- `str(e)` for `None.lower()` in the filename check when the upload
carries no filename. -/
def attrLowerMsg : List Char :=
  "AttributeError: \x27NoneType\x27 object has no attribute \x27lower\x27".data

/-- The `POST /analyze-bank-statement` handler (app.py lines 156-244) as a
function from the upload, the handler's environment and the current set of
existing files to the outcome and the resulting set of files.  The filename
check precedes the `try`; the temp file is written inside it; the `finally`
removes the temp file when `tmp_path` is truthy and the file exists;
`except HTTPException` re-raises and `except Exception` wraps into the
generic 500. -/
def analyze_bank_statement (file : UploadFileIn) (w : World)
    (files : List (List Char)) : Outcome × List (List Char) :=
  match file.filename with
  | none => (.pythonError attrLowerMsg, files)
  | some name =>
    if !(".pdf".data.isSuffixOf (lowerL name)) then
      (.httpError 400 "Only PDF files are supported.".data, files)
    else
      let files1 := w.tmpName :: files
      let body : Outcome :=
        match extract_pdf_text (w.extract file.content) with
        | .error sd => .httpError sd.1 sd.2
        | .ok pdf_text =>
          match w.complete ⟨w.deployment, systemMsg, buildPrompt pdf_text, 0⟩ with
          | .error e => .httpError 500 ("Azure/OpenAI Error: ".data ++ e)
          | .ok rawContent =>
            match json_loads (normalizeCompletion rawContent) with
            | none => .httpError 500 invalidJsonMsg
            | some parsed =>
              match parsed with
              | .jobj members =>
                .success ⟨(dictGet members "account_details".data).getD .null,
                          (dictGet members "transactions".data).getD (.jarr []),
                          "Bank statement processed successfully.".data⟩
              | v => .httpError 500 ("Azure/OpenAI Error: ".data ++ attrGetMsg v)
      let files2 :=
        if !w.tmpName.isEmpty && files1.contains w.tmpName then files1.erase w.tmpName
        else files1
      (body, files2)

/-- Python falsiness of a configuration value: unset, or set to the empty
string (app.py line 78: `if not v`). -/
def envFalsy (v : Option (List Char)) : Bool :=
  match v with
  | none => true
  | some s => s.isEmpty

/-- `missing` (app.py lines 73-78): the names of the falsy configuration
values, in declaration order. -/
def missingVars (key endpoint ver dep : Option (List Char)) : List (List Char) :=
  (([("AZURE_OPENAI_KEY".data, key), ("AZURE_OPENAI_ENDPOINT".data, endpoint),
     ("OPENAI_API_VERSION".data, ver), ("AZURE_DEPLOYMENT".data, dep)].filter
    fun p => envFalsy p.2).map fun p => p.1)

/-- Python's `f"{missing}"` for a list of strings: `['A', 'B']`. -/
def pyListRepr (xs : List (List Char)) : List Char :=
  '[' :: List.intercalate ", ".data (xs.map fun x => '\x27' :: (x ++ ['\x27'])) ++ [']']

/-- Startup validation (app.py lines 73-81): raise `ValueError` naming the
falsy configuration values, else proceed. -/
def startupCheck (key endpoint ver dep : Option (List Char)) : Except (List Char) Unit :=
  let missing := missingVars key endpoint ver dep
  if !missing.isEmpty then
    .error ("Missing environment variables: ".data ++ pyListRepr missing)
  else
    .ok ()

/-! ### List helpers -/

theorem getLastD_append_right (a l : List Char) (d : Char) (h : l ≠ []) :
    (a ++ l).getLastD d = l.getLastD d := by
  rw [List.getLastD_eq_getLast?, List.getLastD_eq_getLast?, List.getLast?_append_of_ne_nil _ h]

theorem headD_append_left (c t : List Char) (d : Char) (h : c ≠ []) :
    (c ++ t).headD d = c.headD d := by
  cases c with
  | nil => exact absurd rfl h
  | cons x xs => rfl

theorem dropWhile_append_all (p : Char → Bool) (a b : List Char)
    (h : ∀ x ∈ a, p x = true) : (a ++ b).dropWhile p = b.dropWhile p := by
  induction a with
  | nil => rfl
  | cons x xs ih =>
    rw [List.cons_append, List.dropWhile_cons_of_pos (h x (by simp))]
    exact ih fun y hy => h y (by simp [hy])

theorem jws_imp_pws (c : Char) (h : jws c = true) : pws c = true := by
  simp only [jws, Bool.or_eq_true] at h
  simp only [pws, Bool.or_eq_true]
  tauto

theorem pws_false_imp_jws (c : Char) (h : pws c = false) : jws c = false := by
  cases hj : jws c with
  | false => rfl
  | true => rw [jws_imp_pws c hj] at h; exact absurd h (by simp)

/-! ### The claims -/

/-- Claim C1: for every request to the analyze endpoint, the filesystem is
unchanged when the handler exits — the temporary file it creates is removed
by the `finally` block on every success and failure path, so no temp file
created during a request remains afterwards. -/
theorem c1_temp_file_cleanup (file : UploadFileIn) (w : World)
    (files : List (List Char)) (hname : w.tmpName ≠ []) :
    (analyze_bank_statement file w files).2 = files ∧
      (w.tmpName ∉ files → w.tmpName ∉ (analyze_bank_statement file w files).2) := by
  have hsnd : (analyze_bank_statement file w files).2 = files := by
    rcases file with ⟨fn, content⟩
    cases fn with
    | none => rfl
    | some name =>
      cases hdec : ".pdf".data.isSuffixOf (lowerL name) with
      | false =>
        simp only [analyze_bank_statement, hdec, Bool.not_false]
        rfl
      | true =>
        simp only [analyze_bank_statement, hdec, Bool.not_true, Bool.false_eq_true, if_false]
        have hne : w.tmpName.isEmpty = false := by simp [List.isEmpty_iff, hname]
        show (if !w.tmpName.isEmpty && (w.tmpName :: files).contains w.tmpName
              then (w.tmpName :: files).erase w.tmpName else w.tmpName :: files) = files
        simp only [hne, Bool.not_false, Bool.true_and]
        rw [if_pos]
        · exact List.erase_cons_head w.tmpName files
        · simp
  exact ⟨hsnd, fun hf => by rw [hsnd]; exact hf⟩

/-- Witness for C1 at a concrete request: a fresh non-empty temp name, a
stubbed PDF library and completion API; the filesystem is returned intact. -/
theorem c1_temp_file_cleanup_witness :
    ("tmp".data ≠ ([] : List Char)) ∧
      (analyze_bank_statement ⟨some "a.pdf".data, [1, 2]⟩
        ⟨fun _ => .pages [['x']], fun _ => .ok "[1]".data, "tmp".data, "dep".data⟩
        ["keep".data]).2 = ["keep".data] :=
  ⟨by decide,
   (c1_temp_file_cleanup ⟨some "a.pdf".data, [1, 2]⟩
     ⟨fun _ => .pages [['x']], fun _ => .ok "[1]".data, "tmp".data, "dep".data⟩
     ["keep".data] (by decide)).1⟩

/-- Claim C5: an upload whose filename does not end in `.pdf` after
lowercasing fails immediately with the 400 input-validation error and the
filesystem is untouched (no temp file is created). -/
theorem c5_non_pdf_rejected (name : List Char) (content : List Nat) (w : World)
    (files : List (List Char)) (h : ".pdf".data.isSuffixOf (lowerL name) = false) :
    analyze_bank_statement ⟨some name, content⟩ w files =
      (.httpError 400 "Only PDF files are supported.".data, files) := by
  simp [analyze_bank_statement, h]

/-- Witness for C5 at the filename `report.txt`. -/
theorem c5_non_pdf_rejected_witness :
    ".pdf".data.isSuffixOf (lowerL "report.txt".data) = false ∧
      analyze_bank_statement ⟨some "report.txt".data, [9]⟩
        ⟨fun _ => .pages [['x']], fun _ => .ok "[1]".data, "tmp".data, "dep".data⟩ [] =
        (.httpError 400 "Only PDF files are supported.".data, []) :=
  ⟨by decide,
   c5_non_pdf_rejected "report.txt".data [9]
     ⟨fun _ => .pages [['x']], fun _ => .ok "[1]".data, "tmp".data, "dep".data⟩ [] (by decide)⟩

/-- Claim C8: with any (deterministic) stubbed extraction and completion
oracles, the handler's response is a function of the filename and the
uploaded bytes alone — two invocations differing only in the temp-file
name drawn and the pre-existing filesystem produce identical outputs. -/
theorem c8_deterministic_response (fn : Option (List Char)) (content : List Nat)
    (ex : List Nat → PdfResult) (co : ChatRequest → Except (List Char) (List Char))
    (dep t1 t2 : List Char) (files1 files2 : List (List Char)) :
    (analyze_bank_statement ⟨fn, content⟩ ⟨ex, co, t1, dep⟩ files1).1 =
      (analyze_bank_statement ⟨fn, content⟩ ⟨ex, co, t2, dep⟩ files2).1 := by
  cases fn with
  | none => rfl
  | some name =>
    cases hdec : ".pdf".data.isSuffixOf (lowerL name) with
    | false =>
      simp only [analyze_bank_statement, hdec, Bool.not_false]
      rfl
    | true =>
      simp only [analyze_bank_statement, hdec, Bool.not_true, Bool.false_eq_true, if_false]

/-- Claim C10: an upload with no filename at all makes the filename check
itself (`file.filename.lower()`) raise an `AttributeError` before any
temporary file is created: the request fails with a non-HTTP exception,
outside the handler's declared error taxonomy. -/
theorem c10_missing_filename_attribute_error (content : List Nat) (w : World)
    (files : List (List Char)) :
    analyze_bank_statement ⟨none, content⟩ w files = (.pythonError attrLowerMsg, files) ∧
      ∀ st d, (Outcome.pythonError attrLowerMsg : Outcome) ≠ .httpError st d :=
  ⟨rfl, fun _ _ h => Outcome.noConfusion h⟩

/-- Claim C4: `extract_pdf_text` fails with the 400 "no readable text"
error exactly when the newline-joined non-empty page texts are empty or
whitespace-only; every extraction-library exception is wrapped into the 500
"PDF extraction failed" error carrying the underlying message, and a library
fault is never reported as the 400 empty-result error. -/
theorem c4_extraction_errors (ts : List (List Char)) (e : List Char) :
    (extract_pdf_text (.pages ts) = .error (400, "No readable text found in PDF.".data) ↔
      (pystrip (joinNL (ts.filter fun t => !t.isEmpty))).isEmpty = true) ∧
    extract_pdf_text (.err e) = .error (500, "PDF extraction failed: ".data ++ e) ∧
    ∀ d, extract_pdf_text (.err e) ≠ .error (400, d) := by
  refine ⟨?_, rfl, fun d h => by simp [extract_pdf_text] at h⟩
  simp only [extract_pdf_text]
  cases hb : (pystrip (joinNL (ts.filter fun t => !t.isEmpty))).isEmpty with
  | true => simp [hb]
  | false => simp [hb]

/-- Witness for C4: a PDF whose only page text is empty triggers the 400
error (via the iff), and a library fault carries its message in the 500. -/
theorem c4_extraction_errors_witness :
    extract_pdf_text (.pages [[]]) = .error (400, "No readable text found in PDF.".data) ∧
      extract_pdf_text (.err "corrupt".data) =
        .error (500, "PDF extraction failed: corrupt".data) :=
  ⟨(c4_extraction_errors [[]] []).1.mpr (by decide), (c4_extraction_errors [] "corrupt".data).2.1⟩

/-- Counterexample to claim C6 as stated: on a PDF whose single page text
is the non-empty, whitespace-only `" "`, the claimed return value would be
the joined text `" "`, but `extract_pdf_text` raises the 400 error instead
of returning. -/
theorem c6_counterexample :
    joinNL ([[' ']].filter fun t => !t.isEmpty) = [' '] ∧
      extract_pdf_text (.pages [[' ']]) =
        .error (400, "No readable text found in PDF.".data) :=
  ⟨rfl, rfl⟩

/-- Claim C6 (amended): whenever the newline-joined concatenation of the
non-empty page texts, in page order, is not empty or whitespace-only,
`extract_pdf_text` returns exactly that concatenation, with no other
transformation; otherwise it raises the 400 "no readable text" error. -/
theorem c6_join_nonempty_pages (ts : List (List Char))
    (h : (pystrip (joinNL (ts.filter fun t => !t.isEmpty))).isEmpty = false) :
    extract_pdf_text (.pages ts) = .ok (joinNL (ts.filter fun t => !t.isEmpty)) := by
  simp [extract_pdf_text, h]

/-- Witness for C6 at pages `["ab", "", "c"]`: the empty page is dropped
and the rest are joined by newlines in order. -/
theorem c6_join_nonempty_pages_witness :
    (pystrip (joinNL (["ab".data, [], "c".data].filter fun t => !t.isEmpty))).isEmpty = false ∧
      extract_pdf_text (.pages ["ab".data, [], "c".data]) = .ok "ab\nc".data :=
  ⟨by decide, c6_join_nonempty_pages ["ab".data, [], "c".data] (by decide)⟩

/-- Counterexample to claim C7 as stated: with all four configuration
values present but the key set to the empty string, startup still aborts
(`if not v` treats the empty string as missing), contradicting "if all four
are present, startup proceeds". -/
theorem c7_counterexample :
    startupCheck (some []) (some ['a']) (some ['b']) (some ['c']) =
      .error "Missing environment variables: [\x27AZURE_OPENAI_KEY\x27]".data :=
  rfl

/-- Claim C7 (amended): startup proceeds exactly when all four
configuration values are present and non-empty; otherwise it aborts before
serving, with a fatal error naming precisely the absent-or-empty
variables. -/
theorem c7_startup_validation (key endpoint ver dep : Option (List Char)) :
    (missingVars key endpoint ver dep = [] → startupCheck key endpoint ver dep = .ok ()) ∧
    (missingVars key endpoint ver dep ≠ [] →
      startupCheck key endpoint ver dep =
        .error ("Missing environment variables: ".data ++
          pyListRepr (missingVars key endpoint ver dep))) := by
  constructor
  · intro h
    simp [startupCheck, h]
  · intro h
    have hb : (missingVars key endpoint ver dep).isEmpty = false := by
      simp [List.isEmpty_iff, h]
    simp [startupCheck, hb]

/-- Witness for C7: both directions at concrete configurations — all four
set and non-empty proceeds; a missing key and empty version abort naming
exactly those two variables. -/
theorem c7_startup_validation_witness :
    startupCheck (some ['k']) (some ['u']) (some ['v']) (some ['d']) = .ok () ∧
      startupCheck none (some ['u']) (some []) (some ['d']) =
        .error ("Missing environment variables: ".data ++
          pyListRepr (missingVars none (some ['u']) (some []) (some ['d']))) :=
  ⟨(c7_startup_validation (some ['k']) (some ['u']) (some ['v']) (some ['d'])).1 (by decide),
   (c7_startup_validation none (some ['u']) (some []) (some ['d'])).2 (by decide)⟩

/-- Counterexample to claim C2 as stated: for the non-JSON completion
"Sure, here's the data: ...", the handler does return a distinct 500
"Model returned invalid JSON." error, but its detail is that fixed string
and does not carry the offending raw completion text. -/
theorem c2_counterexample :
    (analyze_bank_statement ⟨some "a.pdf".data, []⟩
      ⟨fun _ => .pages [['x']], fun _ => .ok "Sure, here\x27s the data: ...".data,
        "tmp".data, "dep".data⟩ []).1 = .httpError 500 invalidJsonMsg ∧
      containsSub "Sure, here\x27s the data: ...".data invalidJsonMsg = false :=
  ⟨rfl, rfl⟩

/-- Claim C2 (amended): for every completion whose normalized form is not
valid JSON, the handler fails with the distinct 500 error whose detail is
the fixed string "Model returned invalid JSON." — it does not include the
raw completion text — and that detail is not of the remote-call-failure
shape (it does not start with "Azure/OpenAI Error: "). -/
theorem c2_invalid_json_distinct_error (name : List Char) (content : List Nat) (w : World)
    (files : List (List Char)) (pdf_text raw : List Char)
    (hp : ".pdf".data.isSuffixOf (lowerL name) = true)
    (hx : extract_pdf_text (w.extract content) = .ok pdf_text)
    (hc : w.complete ⟨w.deployment, systemMsg, buildPrompt pdf_text, 0⟩ = .ok raw)
    (hj : json_loads (normalizeCompletion raw) = none) :
    (analyze_bank_statement ⟨some name, content⟩ w files).1 = .httpError 500 invalidJsonMsg ∧
      ("Azure/OpenAI Error: ".data).isPrefixOf invalidJsonMsg = false := by
  refine ⟨?_, by decide⟩
  simp only [analyze_bank_statement, hp, Bool.not_true, Bool.false_eq_true, if_false, hx, hc, hj]

/-- Witness for C2 at a concrete request whose stubbed completion is prose,
not JSON. -/
theorem c2_invalid_json_distinct_error_witness :
    (analyze_bank_statement ⟨some "b.pdf".data, [7]⟩
      ⟨fun _ => .pages [['y']], fun _ => .ok "not json at all".data, "t2".data, "d2".data⟩
      []).1 = .httpError 500 invalidJsonMsg ∧
      ("Azure/OpenAI Error: ".data).isPrefixOf invalidJsonMsg = false :=
  c2_invalid_json_distinct_error "b.pdf".data [7]
    ⟨fun _ => .pages [['y']], fun _ => .ok "not json at all".data, "t2".data, "d2".data⟩
    [] ['y'] "not json at all".data (by decide) rfl rfl rfl

/-- Claim C9: when the normalized completion parses as JSON whose top-level
value is not an object, the handler does not return the "Model returned
invalid JSON." error: the `.get` call on the non-dict raises an
`AttributeError` that the generic handler converts into the 500
"Azure/OpenAI Error" response. -/
theorem c9_non_object_generic_error (name : List Char) (content : List Nat) (w : World)
    (files : List (List Char)) (pdf_text raw : List Char) (v : JValue)
    (hp : ".pdf".data.isSuffixOf (lowerL name) = true)
    (hx : extract_pdf_text (w.extract content) = .ok pdf_text)
    (hc : w.complete ⟨w.deployment, systemMsg, buildPrompt pdf_text, 0⟩ = .ok raw)
    (hj : json_loads (normalizeCompletion raw) = some v)
    (ho : isObjB v = false) :
    (analyze_bank_statement ⟨some name, content⟩ w files).1 =
      .httpError 500 ("Azure/OpenAI Error: ".data ++ attrGetMsg v) ∧
      "Azure/OpenAI Error: ".data ++ attrGetMsg v ≠ invalidJsonMsg := by
  constructor
  · simp only [analyze_bank_statement, hp, Bool.not_true, Bool.false_eq_true, if_false, hx, hc, hj]
    cases v with
    | jobj ms => simp [isObjB] at ho
    | null => rfl
    | jbool b => rfl
    | jnum tok => rfl
    | jstr s => rfl
    | jarr es => rfl
  · intro h
    have h1 : ("Azure/OpenAI Error: ".data ++ attrGetMsg v).headD ' ' = 'M' := by
      rw [h]; rfl
    rw [headD_append_left _ _ _ (by decide)] at h1
    exact absurd h1 (by decide)

/-- Witness for C9 at a completion whose top-level value is the array
`[1]`: the response is the generic 500 with the `AttributeError` text. -/
theorem c9_non_object_generic_error_witness :
    (analyze_bank_statement ⟨some "c.pdf".data, []⟩
      ⟨fun _ => .pages [['z']], fun _ => .ok "[1]".data, "t3".data, "d3".data⟩ []).1 =
      .httpError 500 ("Azure/OpenAI Error: ".data ++ attrGetMsg (.jarr [.jnum ['1']])) ∧
      "Azure/OpenAI Error: ".data ++ attrGetMsg (.jarr [.jnum ['1']]) ≠ invalidJsonMsg :=
  c9_non_object_generic_error "c.pdf".data []
    ⟨fun _ => .pages [['z']], fun _ => .ok "[1]".data, "t3".data, "d3".data⟩
    [] ['z'] "[1]".data (.jarr [.jnum ['1']]) (by decide) rfl rfl rfl rfl

/-! ### Helpers for the normalization round-trip (claim C3) -/

theorem takeWhile_append_all (p : Char → Bool) (a b : List Char)
    (h : ∀ x ∈ a, p x = true) : (a ++ b).takeWhile p = a ++ b.takeWhile p := by
  induction a with
  | nil => rfl
  | cons x xs ih =>
    rw [List.cons_append, List.takeWhile_cons_of_pos (h x (by simp)), ih fun y hy => h y (by simp [hy]),
      List.cons_append]

theorem takeWhile_of_headD_neg (p : Char → Bool) (b : List Char)
    (h : b = [] ∨ p (b.headD ' ') = false) : b.takeWhile p = [] := by
  rcases h with rfl | hh
  · rfl
  · cases b with
    | nil => rfl
    | cons x xs => exact List.takeWhile_cons_of_neg (by simpa using hh)

theorem dropWhile_of_headD_neg (p : Char → Bool) (b : List Char)
    (h : b = [] ∨ p (b.headD ' ') = false) : b.dropWhile p = b := by
  rcases h with rfl | hh
  · rfl
  · cases b with
    | nil => rfl
    | cons x xs => exact List.dropWhile_cons_of_neg (by simpa using hh)

theorem headD_dropWhile_false (p : Char → Bool) (l : List Char) (d : Char)
    (h : l.dropWhile p ≠ []) : p ((l.dropWhile p).headD d) = false := by
  induction l with
  | nil => exact absurd rfl h
  | cons x xs ih =>
    by_cases hx : p x = true
    · rw [List.dropWhile_cons_of_pos hx] at h ⊢
      exact ih h
    · rw [List.dropWhile_cons_of_neg hx]
      simpa using hx

theorem getLastD_ignore (l : List Char) (a b : Char) (h : l ≠ []) :
    l.getLastD a = l.getLastD b := by
  rw [List.getLastD_eq_getLast?, List.getLastD_eq_getLast?]
  cases hq : l.getLast? with
  | none => rw [List.getLast?_eq_none_iff] at hq; exact absurd hq h
  | some y => rfl

theorem getLastD_all (p : Char → Bool) (l : List Char) (d : Char)
    (h : ∀ x ∈ l, p x = true) (hne : l ≠ []) : p (l.getLastD d) = true := by
  induction l generalizing d with
  | nil => exact absurd rfl hne
  | cons x xs ih =>
    cases hxs : xs with
    | nil => simpa [List.getLastD_cons, hxs] using h x (by simp)
    | cons y ys =>
      rw [List.getLastD_cons, ← hxs]
      exact ih x (fun z hz => h z (by simp [hz])) (by simp [hxs])

/-- A character that can extend a greedy number token. -/
def numCont (c : Char) : Bool :=
  c.isDigit || c == '.' || c == 'e' || c == 'E'

/-- A continuation that cannot change what a completed scan consumed:
empty, or headed by a character that extends no number token. -/
def ExtOk (t : List Char) : Prop :=
  t = [] ∨ numCont (t.headD ' ') = false

theorem extOk_nil : ExtOk [] := Or.inl rfl

theorem extOk_cons (c : Char) (rest : List Char) (h : numCont c = false) :
    ExtOk (c :: rest) := Or.inr (by simpa using h)

theorem jws_not_numCont (c : Char) (h : jws c = true) : numCont c = false := by
  simp only [jws, Bool.or_eq_true, beq_iff_eq] at h
  rcases h with ((rfl | rfl) | rfl) | rfl <;> decide

theorem extOk_ws_append (tk X : List Char) (htk : ∀ x ∈ tk, jws x = true)
    (hX : ExtOk X) : ExtOk (tk ++ X) := by
  cases tk with
  | nil => exact hX
  | cons x xs => exact extOk_cons _ _ (jws_not_numCont x (htk x (by simp)))

theorem extOk_digit_false (t : List Char) (h : ExtOk t) :
    t = [] ∨ ((t.headD ' ').isDigit) = false := by
  rcases h with rfl | hh
  · exact Or.inl rfl
  · simp only [numCont, Bool.or_eq_false_iff] at hh
    exact Or.inr hh.1.1.1

theorem replAux_nil (pat rep : List Char) (f : Nat) : replAux pat rep f [] = [] := by
  cases f <;> rfl

theorem replAux_fuel (pat rep : List Char) :
    ∀ f g s, s.length ≤ f → s.length ≤ g → replAux pat rep f s = replAux pat rep g s := by
  intro f
  induction f with
  | zero =>
    intro g s hf hg
    have : s = [] := by cases s with
      | nil => rfl
      | cons x xs => simp at hf
    subst this
    rw [replAux_nil, replAux_nil]
  | succ f ih =>
    intro g s hf hg
    cases s with
    | nil => rw [replAux_nil, replAux_nil]
    | cons c cs =>
      cases g with
      | zero => simp at hg
      | succ g =>
        show (if pat.isPrefixOf (c :: cs) && !pat.isEmpty then
                rep ++ replAux pat rep f ((c :: cs).drop pat.length)
              else c :: replAux pat rep f cs) =
             (if pat.isPrefixOf (c :: cs) && !pat.isEmpty then
                rep ++ replAux pat rep g ((c :: cs).drop pat.length)
              else c :: replAux pat rep g cs)
        cases hcond : pat.isPrefixOf (c :: cs) && !pat.isEmpty with
        | false =>
          simp only [Bool.false_eq_true, if_false]
          rw [ih g cs (by simpa using hf) (by simpa using hg)]
        | true =>
          simp only [if_pos rfl]
          simp only [Bool.and_eq_true] at hcond
          have hp1 : 1 ≤ pat.length := by
            cases pat with
            | nil => simp at hcond
            | cons a as => simp
          have hlen : ((c :: cs).drop pat.length).length ≤ f := by
            simp only [List.length_drop, List.length_cons]
            simp only [List.length_cons] at hf
            omega
          have hlen2 : ((c :: cs).drop pat.length).length ≤ g := by
            simp only [List.length_drop, List.length_cons]
            simp only [List.length_cons] at hg
            omega
          rw [ih g _ hlen hlen2]
          simp

theorem replaceL_cons_no_match (pat rep : List Char) (c : Char) (cs : List Char)
    (h : pat.isPrefixOf (c :: cs) = false) :
    replaceL pat rep (c :: cs) = c :: replaceL pat rep cs := by
  show (if pat.isPrefixOf (c :: cs) && !pat.isEmpty then _ else c :: replAux pat rep cs.length cs) = _
  rw [h]
  simp only [Bool.false_and, Bool.false_eq_true, if_false]
  rfl

theorem replaceL_head_match (pat rep s : List Char) (hp : pat ≠ []) :
    replaceL pat rep (pat ++ s) = rep ++ replaceL pat rep s := by
  cases pat with
  | nil => exact absurd rfl hp
  | cons a as =>
    show (if (a :: as).isPrefixOf (a :: as ++ s) && !(a :: as).isEmpty then
            rep ++ replAux (a :: as) rep (as ++ s).length (((a :: as) ++ s).drop (a :: as).length)
          else _) = _
    have hpre : (a :: as).isPrefixOf (a :: as ++ s) = true := by
      rw [List.isPrefixOf_iff_prefix]
      exact ⟨s, by simp⟩
    rw [hpre]
    simp only [List.isEmpty_cons, Bool.not_false, Bool.and_self, if_pos rfl]
    rw [List.drop_left (a :: as) s]
    rw [replAux_fuel (a :: as) rep (as ++ s).length s.length s (by simp) (le_refl _)]
    rfl

theorem containsSub_cons_false (pat : List Char) (c : Char) (cs : List Char)
    (h : containsSub pat (c :: cs) = false) :
    pat.isPrefixOf (c :: cs) = false ∧ containsSub pat cs = false := by
  simpa [containsSub, Bool.or_eq_false_iff] using h

theorem replaceL_no_occurrence (pat rep s : List Char)
    (h : containsSub pat s = false) : replaceL pat rep s = s := by
  induction s with
  | nil => exact replAux_nil pat rep 0
  | cons c cs ih =>
    obtain ⟨h1, h2⟩ := containsSub_cons_false pat c cs h
    rw [replaceL_cons_no_match pat rep c cs h1, ih h2]

theorem pystrip_sandwich (a c b : List Char) (ha : ∀ x ∈ a, pws x = true)
    (hb : ∀ x ∈ b, pws x = true) (hh : pws (c.headD ' ') = false)
    (hl : pws (c.getLastD ' ') = false) : pystrip (a ++ c ++ b) = c := by
  have hcne : c ≠ [] := by
    intro hc
    subst hc
    exact absurd hh (by decide)
  have h1 : (a ++ (c ++ b)).dropWhile pws = c ++ b := by
    rw [dropWhile_append_all pws a (c ++ b) ha]
    cases c with
    | nil => exact absurd rfl hcne
    | cons x xs =>
      rw [List.cons_append]
      exact List.dropWhile_cons_of_neg (by simpa using hh)
  rw [List.append_assoc]
  show (((a ++ (c ++ b)).dropWhile pws).reverse.dropWhile pws).reverse = c
  rw [h1, List.reverse_append]
  rw [dropWhile_append_all pws b.reverse c.reverse fun x hx => hb x (List.mem_reverse.mp hx)]
  have h2 : c.reverse.dropWhile pws = c.reverse := by
    cases hcr : c.reverse with
    | nil => rfl
    | cons y ys =>
      have hy : y = c.getLastD ' ' := by
        have hrev := List.head?_reverse c
        rw [hcr] at hrev
        rw [List.getLastD_eq_getLast?, ← hrev]
        rfl
      rw [List.dropWhile_cons_of_neg]
      rw [hy]
      simp only [hl]
      simp
  rw [h2, List.reverse_reverse]

theorem tb_isPrefixOf_three (c b b2 : Char) (X : List Char) :
    "```".data.isPrefixOf (c :: b :: b2 :: X) = (('`' == c) && ('`' == b) && ('`' == b2)) := by
  simp [List.isPrefixOf, Bool.and_assoc]

theorem p7_isPrefixOf_parts (c b b2 : Char) (X : List Char)
    (h : "```json".data.isPrefixOf (c :: b :: b2 :: X) = true) :
    ('`' == c) = true ∧ ('`' == b) = true ∧ ('`' == b2) = true := by
  simp only [List.isPrefixOf, Bool.and_eq_true] at h
  exact ⟨h.1, h.2.1, h.2.2.1⟩

theorem containsSub_p7_bound :
    ∀ j, containsSub "```".data j = false →
      containsSub "```json".data (j ++ "\n```".data) = false := by
  intro j
  induction j with
  | nil => intro _; decide
  | cons c cs ih =>
    intro h
    obtain ⟨h1, h2⟩ := containsSub_cons_false _ c cs h
    show ("```json".data.isPrefixOf (c :: (cs ++ "\n```".data)) ||
      containsSub "```json".data (cs ++ "\n```".data)) = false
    rw [ih h2, Bool.or_false]
    cases cs with
    | nil => simp [List.isPrefixOf]
    | cons b cs2 =>
      cases cs2 with
      | nil => simp [List.isPrefixOf]
      | cons b2 cs3 =>
        cases hpf : "```json".data.isPrefixOf (c :: (b :: b2 :: cs3 ++ "\n```".data)) with
        | false => rfl
        | true =>
          exfalso
          simp only [List.cons_append] at hpf
          obtain ⟨e1, e2, e3⟩ := p7_isPrefixOf_parts c b b2 _ hpf
          rw [tb_isPrefixOf_three, e1, e2, e3] at h1
          simp at h1

theorem replaceL_tb_bound :
    ∀ j, containsSub "```".data j = false →
      replaceL "```".data [] (j ++ "\n```".data) = j ++ ['\n'] := by
  intro j
  induction j with
  | nil => decide
  | cons c cs ih =>
    intro h
    obtain ⟨h1, h2⟩ := containsSub_cons_false _ c cs h
    have hpre : "```".data.isPrefixOf ((c :: cs) ++ "\n```".data) = false := by
      cases cs with
      | nil => simp [List.isPrefixOf]
      | cons b cs2 =>
        cases cs2 with
        | nil => simp [List.isPrefixOf]
        | cons b2 cs3 =>
          simp only [List.cons_append]
          rw [tb_isPrefixOf_three]
          rw [tb_isPrefixOf_three] at h1
          exact h1
    rw [List.cons_append] at hpre ⊢
    rw [replaceL_cons_no_match _ _ _ _ hpre, ih h2]
    rfl

/-- The spec's `fence_wrap`: the completion wrapped in Markdown code fences
with the `json` language tag. -/
def fence_wrap (j : List Char) : List Char :=
  "```json\n".data ++ j ++ "\n```".data

theorem normalize_fence_wrap (j : List Char) (hTB : containsSub "```".data j = false) :
    normalizeCompletion (fence_wrap j) = pystrip ('\n' :: (j ++ ['\n'])) := by
  have hstrip : pystrip (fence_wrap j) = fence_wrap j := by
    have hs := pystrip_sandwich [] (fence_wrap j) [] (by simp) (by simp) ?_ ?_
    · rw [List.nil_append, List.append_nil] at hs
      exact hs
    · show pws ((fence_wrap j).headD ' ') = false
      rw [show fence_wrap j = "```json\n".data ++ (j ++ "\n```".data) from by
        simp [fence_wrap, List.append_assoc]]
      rw [headD_append_left _ _ _ (by decide)]
      decide
    · show pws ((fence_wrap j).getLastD ' ') = false
      rw [show fence_wrap j = ("```json\n".data ++ j) ++ "\n```".data from by
        simp [fence_wrap, List.append_assoc]]
      rw [getLastD_append_right _ _ _ (by decide)]
      decide
  have hpf : "```".data.isPrefixOf (fence_wrap j) = true := by
    rw [show fence_wrap j = "```".data ++ ("json\n".data ++ (j ++ "\n```".data)) from by
      simp [fence_wrap, List.append_assoc]]
    rw [List.isPrefixOf_iff_prefix]
    exact List.prefix_append _ _
  have hr1 : replaceL "```json".data [] (fence_wrap j) = '\n' :: (j ++ "\n```".data) := by
    rw [show fence_wrap j = "```json".data ++ ('\n' :: (j ++ "\n```".data)) from by
      simp [fence_wrap, List.append_assoc]]
    rw [replaceL_head_match _ _ _ (by decide), List.nil_append]
    apply replaceL_no_occurrence
    show ("```json".data.isPrefixOf ('\n' :: (j ++ "\n```".data)) ||
      containsSub "```json".data (j ++ "\n```".data)) = false
    rw [containsSub_p7_bound j hTB]
    simp [List.isPrefixOf]
  have hr2 : replaceL "```".data [] ('\n' :: (j ++ "\n```".data)) = '\n' :: (j ++ ['\n']) := by
    rw [replaceL_cons_no_match _ _ _ _ (by simp [List.isPrefixOf])]
    rw [replaceL_tb_bound j hTB]
  simp only [normalizeCompletion, hstrip, hpf]
  rw [if_pos trivial, hr1, hr2]

theorem expectL_eq (p s r : List Char) (h : expectL p s = some r) : s = p ++ r := by
  cases hps : p.isPrefixOf s with
  | false => simp [expectL, hps] at h
  | true =>
    simp [expectL, hps] at h
    rw [List.isPrefixOf_iff_prefix] at hps
    obtain ⟨t, ht⟩ := hps
    rw [← h, ← ht, List.drop_left]

theorem expectL_self_append (p t : List Char) : expectL p (p ++ t) = some t := by
  have hp : p.isPrefixOf (p ++ t) = true := by
    rw [List.isPrefixOf_iff_prefix]
    exact List.prefix_append p t
  simp only [expectL, hp]
  rw [if_pos trivial, List.drop_left]

theorem headD_all (p : Char → Bool) (l : List Char) (d : Char)
    (h : ∀ x ∈ l, p x = true) (hne : l ≠ []) : p (l.headD d) = true := by
  cases l with
  | nil => exact absurd rfl hne
  | cons x xs => exact h x (by simp)

theorem beq_digit_left_false (d c : Char) (hd : d.isDigit = true) (hc : c.isDigit = false) :
    (d == c) = false := by
  cases hq : d == c with
  | false => rfl
  | true =>
    exfalso
    have he : d = c := by simpa using hq
    subst he
    rw [hd] at hc
    exact Bool.noConfusion hc

theorem beq_digit_right_false (c d : Char) (hd : d.isDigit = true) (hc : c.isDigit = false) :
    (c == d) = false := by
  cases hq : c == d with
  | false => rfl
  | true =>
    exfalso
    have he : c = d := by simpa using hq
    subst he
    rw [hc] at hd
    exact Bool.noConfusion hd

theorem eE_facts (c : Char) (h : (c == 'e' || c == 'E') = true) :
    c.isDigit = false ∧ (c == '.') = false ∧ (c == '0') = false := by
  have hor : c = 'e' ∨ c = 'E' := by simpa using h
  rcases hor with rfl | rfl <;> exact ⟨by decide, by decide, by decide⟩

theorem extOk_parts (t : List Char) (h : ExtOk t) :
    t = [] ∨ ((t.headD ' ').isDigit = false ∧ (t.headD ' ' == '.') = false ∧
      (t.headD ' ' == 'e') = false ∧ (t.headD ' ' == 'E') = false) := by
  rcases h with rfl | hh
  · exact Or.inl rfl
  · simp only [numCont, Bool.or_eq_false_iff] at hh
    exact Or.inr ⟨hh.1.1.1, hh.1.1.2, hh.1.2, hh.2⟩

theorem parseFracPart_none (s : List Char) (h : s = [] ∨ (s.headD ' ' == '.') = false) :
    parseFracPart s = ([], s) := by
  have hcond : (s.headD ' ' == '.' && (s.tail.headD ' ').isDigit) = false := by
    rcases h with rfl | hh
    · rfl
    · rw [hh, Bool.false_and]
  unfold parseFracPart
  rw [hcond]
  rfl

theorem parseExpPart_none (s : List Char)
    (h : s = [] ∨ ((s.headD ' ' == 'e') = false ∧ (s.headD ' ' == 'E') = false)) :
    parseExpPart s = ([], s) := by
  have hcond : (s.headD ' ' == 'e' || s.headD ' ' == 'E') = false := by
    rcases h with rfl | hh
    · rfl
    · rw [hh.1, hh.2]
      rfl
  unfold parseExpPart
  rw [hcond]
  rfl

theorem parseIntPart_spec (s ip r : List Char) (h : parseIntPart s = some (ip, r)) :
    s = ip ++ r ∧ ip ≠ [] ∧ (∀ x ∈ ip, x.isDigit = true) ∧
    ∀ t, (t = [] ∨ ((t.headD ' ').isDigit) = false) → parseIntPart (ip ++ t) = some (ip, t) := by
  unfold parseIntPart at h
  cases h0 : s.headD ' ' == '0' with
  | true =>
    rw [h0, if_pos rfl, Option.some.injEq, Prod.mk.injEq] at h
    obtain ⟨hip, hr⟩ := h
    have hs0 : s.headD ' ' = '0' := by simpa using h0
    cases s with
    | nil => exact absurd hs0 (by decide)
    | cons c cs =>
      rw [List.headD_cons] at hs0
      subst hs0
      rw [List.tail_cons] at hr
      subst hr
      subst hip
      refine ⟨rfl, by simp, ?_, ?_⟩
      · intro x hx
        simp at hx
        subst hx
        decide
      · intro t _
        rw [List.singleton_append, parseIntPart, List.headD_cons, List.tail_cons,
          show (('0' == '0') = true) from rfl, if_pos rfl]
  | false =>
    rw [h0] at h
    cases h1 : (s.headD ' ').isDigit with
    | false =>
      rw [h1] at h
      simp at h
    | true =>
      rw [h1, if_pos rfl] at h
      simp only [if_neg (by simp : ¬ (false = true)), Option.some.injEq, Prod.mk.injEq] at h
      obtain ⟨hip, hr⟩ := h
      cases s with
      | nil => exact absurd h1 (by decide)
      | cons c cs =>
        rw [List.headD_cons] at hip h0 h1
        rw [List.tail_cons] at hip hr
        subst hip
        subst hr
        have htw : ∀ x ∈ cs.takeWhile Char.isDigit, x.isDigit = true :=
          fun x hx => List.mem_takeWhile_imp hx
        refine ⟨by simp [List.takeWhile_append_dropWhile], by simp, ?_, ?_⟩
        · intro x hx
          rcases List.mem_cons.mp hx with rfl | hx2
          · exact h1
          · exact htw x hx2
        · intro t ht
          rw [List.cons_append, parseIntPart, List.headD_cons, List.tail_cons, h0, h1,
            if_neg (by simp : ¬ (false = true)), if_pos rfl]
          rw [takeWhile_append_all _ _ _ htw, takeWhile_of_headD_neg _ _ ht,
            dropWhile_append_all _ _ _ htw, dropWhile_of_headD_neg _ _ ht, List.append_nil]

theorem parseFracPart_shape (s fp r : List Char) (h : parseFracPart s = (fp, r)) :
    (fp = [] ∧ r = s) ∨
    (s = fp ++ r ∧ fp ≠ [] ∧ fp.headD ' ' = '.' ∧ (fp.getLastD ' ').isDigit = true ∧
      ∀ X, (X = [] ∨ ((X.headD ' ').isDigit) = false) → parseFracPart (fp ++ X) = (fp, X)) := by
  unfold parseFracPart at h
  cases hc : (s.headD ' ' == '.' && (s.tail.headD ' ').isDigit) with
  | false =>
    rw [hc, if_neg (by simp : ¬ (false = true)), Prod.mk.injEq] at h
    exact Or.inl ⟨h.1.symm, h.2.symm⟩
  | true =>
    rw [hc, if_pos rfl, Prod.mk.injEq] at h
    obtain ⟨hfp, hr⟩ := h
    rw [Bool.and_eq_true] at hc
    obtain ⟨hdot, hdig⟩ := hc
    right
    cases s with
    | nil => exact absurd hdot (by decide)
    | cons c cs =>
      rw [List.headD_cons] at hdot
      have hceq : c = '.' := by simpa using hdot
      subst hceq
      rw [List.tail_cons] at hfp hr hdig
      have htw : ∀ x ∈ cs.takeWhile Char.isDigit, x.isDigit = true :=
        fun x hx => List.mem_takeWhile_imp hx
      have htwne : cs.takeWhile Char.isDigit ≠ [] := by
        cases cs with
        | nil => exact absurd hdig (by decide)
        | cons d ds =>
          rw [List.headD_cons] at hdig
          rw [List.takeWhile_cons_of_pos hdig]
          simp
      subst hfp
      subst hr
      refine ⟨by simp [List.takeWhile_append_dropWhile], by simp, rfl, ?_, ?_⟩
      · rw [List.getLastD_cons]
        exact getLastD_all _ _ _ htw htwne
      · intro X hX
        rw [List.cons_append, parseFracPart, List.headD_cons, List.tail_cons,
          show (('.' == '.') = true) from rfl, Bool.true_and,
          headD_append_left _ _ _ htwne, headD_all _ _ _ htw htwne, if_pos rfl]
        rw [takeWhile_append_all _ _ _ htw, takeWhile_of_headD_neg _ _ hX,
          dropWhile_append_all _ _ _ htw, dropWhile_of_headD_neg _ _ hX, List.append_nil]

theorem parseExpPart_shape (s ep r : List Char) (h : parseExpPart s = (ep, r)) :
    (ep = [] ∧ r = s) ∨
    (s = ep ++ r ∧ ep ≠ [] ∧ ((ep.headD ' ' == 'e') || (ep.headD ' ' == 'E')) = true ∧
      (ep.getLastD ' ').isDigit = true ∧
      ∀ X, (X = [] ∨ ((X.headD ' ').isDigit) = false) → parseExpPart (ep ++ X) = (ep, X)) := by
  unfold parseExpPart at h
  cases he : (s.headD ' ' == 'e' || s.headD ' ' == 'E') with
  | false =>
    rw [he, if_neg (by simp : ¬ (false = true)), Prod.mk.injEq] at h
    exact Or.inl ⟨h.1.symm, h.2.symm⟩
  | true =>
    rw [he, if_pos rfl] at h
    cases hsg : (s.tail.headD ' ' == '+' || s.tail.headD ' ' == '-') with
    | true =>
      rw [hsg, if_pos rfl] at h
      cases hd : (s.tail.tail.headD ' ').isDigit with
      | false =>
        rw [hd, if_neg (by simp : ¬ (false = true)), Prod.mk.injEq] at h
        exact Or.inl ⟨h.1.symm, h.2.symm⟩
      | true =>
        rw [hd, if_pos rfl, Prod.mk.injEq] at h
        obtain ⟨hep, hr⟩ := h
        right
        cases s with
        | nil => exact absurd he (by decide)
        | cons c cs =>
          cases cs with
          | nil =>
            rw [List.tail_cons] at hsg
            exact absurd hsg (by decide)
          | cons c2 cs2 =>
            rw [List.headD_cons] at he
            rw [List.tail_cons, List.headD_cons] at hsg
            rw [List.tail_cons, List.tail_cons] at hd hep hr
            rw [List.headD_cons, List.headD_cons] at hep
            have htw : ∀ x ∈ cs2.takeWhile Char.isDigit, x.isDigit = true :=
              fun x hx => List.mem_takeWhile_imp hx
            have htwne : cs2.takeWhile Char.isDigit ≠ [] := by
              cases cs2 with
              | nil => exact absurd hd (by decide)
              | cons d ds =>
                rw [List.headD_cons] at hd
                rw [List.takeWhile_cons_of_pos hd]
                simp
            subst hep
            subst hr
            refine ⟨by simp [List.takeWhile_append_dropWhile], by simp, by simpa using he, ?_, ?_⟩
            · rw [List.getLastD_cons, List.getLastD_cons]
              exact getLastD_all _ _ _ htw htwne
            · intro X hX
              rw [List.cons_append, List.cons_append, parseExpPart, List.headD_cons, he,
                if_pos rfl, List.tail_cons, List.headD_cons, hsg, if_pos rfl, List.tail_cons,
                headD_append_left _ _ _ htwne, headD_all _ _ _ htw htwne, if_pos rfl]
              rw [takeWhile_append_all _ _ _ htw, takeWhile_of_headD_neg _ _ hX,
                dropWhile_append_all _ _ _ htw, dropWhile_of_headD_neg _ _ hX, List.append_nil]
    | false =>
      rw [hsg, if_neg (by simp : ¬ (false = true))] at h
      cases hd2 : (s.tail.headD ' ').isDigit with
      | false =>
        rw [hd2, if_neg (by simp : ¬ (false = true)), Prod.mk.injEq] at h
        exact Or.inl ⟨h.1.symm, h.2.symm⟩
      | true =>
        rw [hd2, if_pos rfl, Prod.mk.injEq] at h
        obtain ⟨hep, hr⟩ := h
        right
        cases s with
        | nil => exact absurd he (by decide)
        | cons c cs =>
          rw [List.headD_cons] at he
          rw [List.tail_cons] at hd2 hep hr
          rw [List.headD_cons] at hep
          have htw : ∀ x ∈ cs.takeWhile Char.isDigit, x.isDigit = true :=
            fun x hx => List.mem_takeWhile_imp hx
          have htwne : cs.takeWhile Char.isDigit ≠ [] := by
            cases cs with
            | nil => exact absurd hd2 (by decide)
            | cons d ds =>
              rw [List.headD_cons] at hd2
              rw [List.takeWhile_cons_of_pos hd2]
              simp
          subst hep
          subst hr
          refine ⟨by simp [List.takeWhile_append_dropWhile], by simp, by simpa using he, ?_, ?_⟩
          · rw [List.getLastD_cons]
            exact getLastD_all _ _ _ htw htwne
          · intro X hX
            have hdigtw : ((cs.takeWhile Char.isDigit ++ X).headD ' ').isDigit = true := by
              rw [headD_append_left _ _ _ htwne]
              exact headD_all _ _ _ htw htwne
            rw [List.cons_append, parseExpPart, List.headD_cons, he, if_pos rfl, List.tail_cons]
            rw [beq_digit_left_false _ '+' hdigtw (by decide),
              beq_digit_left_false _ '-' hdigtw (by decide), Bool.or_self,
              if_neg (by simp : ¬ (false = true)), hdigtw, if_pos rfl]
            rw [takeWhile_append_all _ _ _ htw, takeWhile_of_headD_neg _ _ hX,
              dropWhile_append_all _ _ _ htw, dropWhile_of_headD_neg _ _ hX, List.append_nil]

theorem parseNum_unsigned (s2 ip r1 fp r2 ep r3 : List Char)
    (hip : parseIntPart s2 = some (ip, r1))
    (hfp : parseFracPart r1 = (fp, r2))
    (hep : parseExpPart r2 = (ep, r3)) :
    s2 = (ip ++ (fp ++ ep)) ++ r3 ∧ ip ≠ [] ∧ (∀ x ∈ ip, x.isDigit = true) ∧
    ((ip ++ (fp ++ ep)).getLastD ' ').isDigit = true ∧
    ∀ t, ExtOk t →
      parseIntPart ((ip ++ (fp ++ ep)) ++ t) = some (ip, fp ++ (ep ++ t)) ∧
      parseFracPart (fp ++ (ep ++ t)) = (fp, ep ++ t) ∧
      parseExpPart (ep ++ t) = (ep, t) := by
  obtain ⟨hs2, hipne, hipdig, hiprep⟩ := parseIntPart_spec _ _ _ hip
  have hfpcase := parseFracPart_shape _ _ _ hfp
  have hepcase := parseExpPart_shape _ _ _ hep
  rcases hfpcase with ⟨hfpnil, hr2⟩ | ⟨hr1dec, hfpne, hfphead, hfplast, hfprep⟩ <;>
    rcases hepcase with ⟨hepnil, hr3⟩ | ⟨hr2dec, hepne, hephead, heplast, heprep⟩
  · -- fp = [], ep = []
    subst hfpnil
    subst hepnil
    subst hr2
    subst hr3
    refine ⟨by simpa using hs2, hipne, hipdig, by simpa using getLastD_all _ _ ' ' hipdig hipne, ?_⟩
    intro t ht
    have hdt := extOk_digit_false t ht
    refine ⟨?_, ?_, ?_⟩
    · have := hiprep t hdt
      simpa using this
    · simp only [List.nil_append]
      apply parseFracPart_none
      rcases extOk_parts t ht with rfl | hq
      · exact Or.inl rfl
      · exact Or.inr hq.2.1
    · simp only [List.nil_append]
      apply parseExpPart_none
      rcases extOk_parts t ht with rfl | hq
      · exact Or.inl rfl
      · exact Or.inr ⟨hq.2.2.1, hq.2.2.2⟩
  · -- fp = [], ep ≠ []
    subst hfpnil
    subst hr2
    have hepdig : (ep.headD ' ').isDigit = false := (eE_facts _ hephead).1
    have hepdot : (ep.headD ' ' == '.') = false := (eE_facts _ hephead).2.1
    refine ⟨by simp only [List.nil_append]; rw [hs2, hr2dec, List.append_assoc], hipne, hipdig, ?_, ?_⟩
    · simp only [List.nil_append]
      rw [getLastD_append_right _ _ _ hepne]
      rw [getLastD_ignore _ _ ' ' hepne] at heplast
      exact heplast
    · intro t ht
      refine ⟨?_, ?_, ?_⟩
      · have hcond : (ep ++ t) = [] ∨ (((ep ++ t).headD ' ').isDigit) = false := by
          right
          rw [headD_append_left _ _ _ hepne]
          exact hepdig
        have := hiprep (ep ++ t) (by simpa using hcond)
        simpa [List.append_assoc] using this
      · simp only [List.nil_append]
        apply parseFracPart_none
        right
        rw [headD_append_left _ _ _ hepne]
        exact hepdot
      · exact heprep t (extOk_digit_false t ht)
  · -- fp ≠ [], ep = []
    subst hepnil
    subst hr3
    have hfpdig : (fp.headD ' ').isDigit = false := by rw [hfphead]; decide
    refine ⟨by rw [hs2, hr1dec]; simp [List.append_assoc], hipne, hipdig, ?_, ?_⟩
    · rw [List.append_nil, getLastD_append_right _ _ _ hfpne]
      rw [getLastD_ignore _ _ ' ' hfpne] at hfplast
      exact hfplast
    · intro t ht
      refine ⟨?_, ?_, ?_⟩
      · have hcond : (fp ++ ([] ++ t)) = [] ∨ (((fp ++ ([] ++ t)).headD ' ').isDigit) = false := by
          right
          rw [headD_append_left _ _ _ hfpne]
          exact hfpdig
        have := hiprep (fp ++ ([] ++ t)) hcond
        simpa [List.append_assoc] using this
      · simp only [List.nil_append]
        exact hfprep t (extOk_digit_false t ht)
      · simp only [List.nil_append]
        apply parseExpPart_none
        rcases extOk_parts t ht with rfl | hq
        · exact Or.inl rfl
        · exact Or.inr ⟨hq.2.2.1, hq.2.2.2⟩
  · -- fp ≠ [], ep ≠ []
    have hfpdig : (fp.headD ' ').isDigit = false := by rw [hfphead]; decide
    have hepdig : (ep.headD ' ').isDigit = false := (eE_facts _ hephead).1
    have hepdot : (ep.headD ' ' == '.') = false := (eE_facts _ hephead).2.1
    refine ⟨by rw [hs2, hr1dec, hr2dec]; simp [List.append_assoc], hipne, hipdig, ?_, ?_⟩
    · rw [getLastD_append_right _ _ _ (by simp [hepne] : fp ++ ep ≠ []),
        getLastD_append_right _ _ _ hepne]
      rw [getLastD_ignore _ _ ' ' hepne] at heplast
      exact heplast
    · intro t ht
      refine ⟨?_, ?_, ?_⟩
      · have hcond : (fp ++ (ep ++ t)) = [] ∨ (((fp ++ (ep ++ t)).headD ' ').isDigit) = false := by
          right
          rw [headD_append_left _ _ _ hfpne]
          exact hfpdig
        have := hiprep (fp ++ (ep ++ t)) hcond
        simpa [List.append_assoc] using this
      · have hcond : (ep ++ t) = [] ∨ (((ep ++ t).headD ' ').isDigit) = false := by
          right
          rw [headD_append_left _ _ _ hepne]
          exact hepdig
        exact hfprep (ep ++ t) hcond
      · exact heprep t (extOk_digit_false t ht)

theorem parseNum_spec (s tok r : List Char) (h : parseNum s = some (tok, r)) :
    s = tok ++ r ∧ tok ≠ [] ∧
    (tok.headD ' ' = '-' ∨ (tok.headD ' ').isDigit = true) ∧
    (tok.getLastD ' ').isDigit = true ∧
    (tok.headD ' ' = '-' → (tok.tail.headD ' ').isDigit = true) ∧
    ∀ t, ExtOk t → parseNum (tok ++ t) = some (tok, t) := by
  unfold parseNum at h
  cases hsg : s.headD ' ' == '-' with
  | true =>
    rw [hsg, if_pos rfl] at h
    cases hip : parseIntPart s.tail with
    | none =>
      simp only [hip] at h
      exact Option.noConfusion h
    | some pr =>
      obtain ⟨ip, r1⟩ := pr
      rcases hfp : parseFracPart r1 with ⟨fp, r2⟩
      rcases hep : parseExpPart r2 with ⟨ep, r3⟩
      simp only [hip, hfp, hep, Option.some.injEq, Prod.mk.injEq] at h
      obtain ⟨htok, hrr⟩ := h
      obtain ⟨hs2, hipne, hipdig, hlast, hreplay⟩ := parseNum_unsigned _ _ _ _ _ _ _ hip hfp hep
      have htok2 : tok = '-' :: (ip ++ (fp ++ ep)) := by
        rw [← htok]
        simp [List.append_assoc]
      subst htok2
      subst hrr
      have hsne : s = '-' :: s.tail := by
        cases s with
        | nil => exact absurd hsg (by decide)
        | cons c cs =>
          rw [List.headD_cons] at hsg
          have hcm : c = '-' := by simpa using hsg
          subst hcm
          rfl
      refine ⟨?_, by simp, Or.inl rfl, ?_, ?_, ?_⟩
      · rw [hsne, hs2]
        rfl
      · rw [List.getLastD_cons, getLastD_ignore _ _ ' ' (by simp [hipne])]
        exact hlast
      · intro _
        rw [List.tail_cons, headD_append_left _ _ _ hipne]
        exact headD_all _ _ _ hipdig hipne
      · intro t ht
        obtain ⟨hi, hf, he⟩ := hreplay t ht
        rw [List.cons_append]
        simp only [parseNum, List.headD_cons, List.tail_cons,
          show (('-' == '-') = true) from rfl, eq_self_iff_true, if_true, hi, hf, he]
        simp [List.append_assoc]
  | false =>
    rw [hsg, if_neg (by simp : ¬ (false = true))] at h
    cases hip : parseIntPart s with
    | none =>
      simp only [hip] at h
      exact Option.noConfusion h
    | some pr =>
      obtain ⟨ip, r1⟩ := pr
      rcases hfp : parseFracPart r1 with ⟨fp, r2⟩
      rcases hep : parseExpPart r2 with ⟨ep, r3⟩
      simp only [hip, hfp, hep, Option.some.injEq, Prod.mk.injEq] at h
      obtain ⟨htok, hrr⟩ := h
      obtain ⟨hs2, hipne, hipdig, hlast, hreplay⟩ := parseNum_unsigned _ _ _ _ _ _ _ hip hfp hep
      have htok2 : tok = ip ++ (fp ++ ep) := by
        rw [← htok]
        simp [List.append_assoc]
      subst htok2
      subst hrr
      have hLne : ip ++ (fp ++ ep) ≠ [] := by simp [hipne]
      have hdig : ((ip ++ (fp ++ ep)).headD ' ').isDigit = true := by
        rw [headD_append_left _ _ _ hipne]
        exact headD_all _ _ _ hipdig hipne
      refine ⟨hs2, hLne, Or.inr hdig, hlast, ?_, ?_⟩
      · intro hmin
        rw [hmin] at hdig
        exact absurd hdig (by decide)
      · intro t ht
        obtain ⟨hi, hf, he⟩ := hreplay t ht
        simp only [parseNum, headD_append_left _ _ _ hLne,
          beq_digit_left_false _ '-' hdig (by decide), Bool.false_eq_true, if_false,
          hi, hf, he]
        simp [List.append_assoc]

theorem map_cons_eq (X : Option (List Char × List Char)) (d : Char) (out r : List Char)
    (h : (X.map fun p => (d :: p.1, p.2)) = some (out, r)) :
    ∃ out2, X = some (out2, r) ∧ out = d :: out2 := by
  cases X with
  | none => exact Option.noConfusion h
  | some p =>
    obtain ⟨o2, r2⟩ := p
    simp only [Option.map_some', Option.some.injEq, Prod.mk.injEq] at h
    exact ⟨o2, by rw [h.2], h.1.symm⟩

theorem strBody_spec :
    ∀ fuel s out r, strBodyAux fuel s = some (out, r) →
      ∃ cL, s = cL ++ r ∧ cL ≠ [] ∧ cL.getLastD ' ' = '"' ∧
        ∀ t g, cL.length ≤ g → strBodyAux g (cL ++ t) = some (out, t) := by
  intro fuel
  induction fuel with
  | zero =>
    intro s out r h
    exact Option.noConfusion h
  | succ fuel ih =>
    intro s out r h
    cases s with
    | nil => exact Option.noConfusion h
    | cons c cs =>
      simp only [strBodyAux] at h
      cases hq1 : c == '"' with
      | true =>
        have hc : c = '"' := by simpa using hq1
        subst hc
        rw [hq1, if_pos rfl, Option.some.injEq, Prod.mk.injEq] at h
        obtain ⟨ho, hr⟩ := h
        subst ho
        subst hr
        refine ⟨['"'], rfl, by simp, rfl, ?_⟩
        intro t g hg
        cases g with
        | zero => simp at hg
        | succ g =>
          rw [List.singleton_append]
          simp only [strBodyAux]
          rw [show (('"' == '"') = true) from rfl, if_pos rfl]
      | false =>
        rw [hq1, if_neg (by simp : ¬ (false = true))] at h
        cases hq2 : c == '\\' with
        | false =>
          rw [hq2, if_neg (by simp : ¬ (false = true))] at h
          by_cases hctl : c.toNat < 0x20
          · rw [if_pos hctl] at h
            exact Option.noConfusion h
          · rw [if_neg hctl] at h
            obtain ⟨out2, hin, hout⟩ := map_cons_eq _ _ _ _ h
            obtain ⟨c2, hdec, hc2ne, hc2last, hext⟩ := ih cs out2 r hin
            subst hout
            refine ⟨c :: c2, by rw [hdec]; rfl, by simp, ?_, ?_⟩
            · rw [List.getLastD_cons, getLastD_ignore _ _ ' ' hc2ne]
              exact hc2last
            · intro t g hg
              cases g with
              | zero => simp at hg
              | succ g =>
                rw [List.cons_append]
                simp only [strBodyAux]
                rw [hq1, if_neg (by simp : ¬ (false = true)),
                  hq2, if_neg (by simp : ¬ (false = true)), if_neg hctl]
                rw [hext t g (by simp only [List.length_cons] at hg; omega)]
                rfl
        | true =>
          have hc : c = '\\' := by simpa using hq2
          subst hc
          rw [hq2, if_pos rfl] at h
          cases cs with
          | nil => exact Option.noConfusion h
          | cons e cs2 =>
            dsimp only at h
            cases hqu : e == 'u' with
            | false =>
              rw [hqu, if_neg (by simp : ¬ (false = true))] at h
              cases hesc : escChar e with
              | none => rw [hesc] at h; exact Option.noConfusion h
              | some d =>
                rw [hesc] at h
                dsimp only at h
                obtain ⟨out2, hin, hout⟩ := map_cons_eq _ _ _ _ h
                obtain ⟨c2, hdec, hc2ne, hc2last, hext⟩ := ih cs2 out2 r hin
                subst hout
                refine ⟨'\\' :: e :: c2, by rw [hdec]; rfl, by simp, ?_, ?_⟩
                · rw [List.getLastD_cons, List.getLastD_cons, getLastD_ignore _ _ ' ' hc2ne]
                  exact hc2last
                · intro t g hg
                  cases g with
                  | zero => simp at hg
                  | succ g =>
                    rw [List.cons_append, List.cons_append]
                    simp only [strBodyAux]
                    rw [show (('\\' == '"') = false) from rfl,
                      if_neg (by simp : ¬ (false = true)),
                      show (('\\' == '\\') = true) from rfl, if_pos rfl]
                    rw [hqu, if_neg (by simp : ¬ (false = true)), hesc]
                    rw [hext t g (by simp only [List.length_cons] at hg; omega)]
                    rfl
            | true =>
              have heu : e = 'u' := by simpa using hqu
              subst heu
              rw [hqu, if_pos rfl] at h
              rcases cs2 with _ | ⟨u1, _ | ⟨u2, _ | ⟨u3, _ | ⟨u4, rest⟩⟩⟩⟩
              · exact Option.noConfusion h
              · exact Option.noConfusion h
              · exact Option.noConfusion h
              · exact Option.noConfusion h
              dsimp only at h
              cases hhex : isHex u1 && isHex u2 && isHex u3 && isHex u4 with
              | false =>
                rw [hhex, if_neg (by simp : ¬ (false = true))] at h
                exact Option.noConfusion h
              | true =>
                rw [hhex, if_pos rfl] at h
                cases hsur : isHighSur (hex4 u1 u2 u3 u4) with
                | false =>
                  rw [hsur, if_neg (by simp : ¬ (false = true))] at h
                  obtain ⟨out2, hin, hout⟩ := map_cons_eq _ _ _ _ h
                  obtain ⟨c2, hdec, hc2ne, hc2last, hext⟩ := ih rest out2 r hin
                  subst hout
                  refine ⟨'\\' :: 'u' :: u1 :: u2 :: u3 :: u4 :: c2, by rw [hdec]; rfl,
                    by simp, ?_, ?_⟩
                  · rw [List.getLastD_cons, List.getLastD_cons, List.getLastD_cons,
                      List.getLastD_cons, List.getLastD_cons, List.getLastD_cons,
                      getLastD_ignore _ _ ' ' hc2ne]
                    exact hc2last
                  · intro t g hg
                    cases g with
                    | zero => simp at hg
                    | succ g =>
                      simp only [List.cons_append]
                      simp only [strBodyAux]
                      rw [hhex, if_pos rfl, hsur, if_neg (by simp : ¬ (false = true))]
                      rw [hext t g (by simp only [List.length_cons] at hg; omega)]
                      rfl
                | true =>
                  rw [hsur, if_pos rfl] at h
                  cases hpk : (rest.headD ' ' == '\\' && rest.tail.headD ' ' == 'u') with
                  | false =>
                    rw [hpk, if_neg (by simp : ¬ (false = true))] at h
                    obtain ⟨out2, hin, hout⟩ := map_cons_eq _ _ _ _ h
                    obtain ⟨c2, hdec, hc2ne, hc2last, hext⟩ := ih rest out2 r hin
                    subst hout
                    have hpk2 : ∀ t2 : List Char,
                        ((c2 ++ t2).headD ' ' == '\\' && (c2 ++ t2).tail.headD ' ' == 'u') = false := by
                      intro t2
                      rcases c2 with _ | ⟨a1, _ | ⟨a2, c2x⟩⟩
                      · exact absurd rfl hc2ne
                      · have ha1 : a1 = '"' := by simpa using hc2last
                        subst ha1
                        rw [List.singleton_append, List.headD_cons]
                        rw [show (('"' == '\\') = false) from rfl, Bool.false_and]
                      · have hr1 : rest.headD ' ' = a1 := by rw [hdec]; rfl
                        have hr2 : rest.tail.headD ' ' = a2 := by rw [hdec]; rfl
                        rw [List.cons_append, List.cons_append, List.headD_cons,
                          List.tail_cons, List.headD_cons, ← hr1, ← hr2]
                        exact hpk
                    refine ⟨'\\' :: 'u' :: u1 :: u2 :: u3 :: u4 :: c2, by rw [hdec]; rfl,
                      by simp, ?_, ?_⟩
                    · rw [List.getLastD_cons, List.getLastD_cons, List.getLastD_cons,
                        List.getLastD_cons, List.getLastD_cons, List.getLastD_cons,
                        getLastD_ignore _ _ ' ' hc2ne]
                      exact hc2last
                    · intro t g hg
                      cases g with
                      | zero => simp at hg
                      | succ g =>
                        simp only [List.cons_append]
                        simp only [strBodyAux]
                        rw [hhex, if_pos rfl, hsur, if_pos rfl, hpk2 t,
                          if_neg (by simp : ¬ (false = true))]
                        rw [hext t g (by simp only [List.length_cons] at hg; omega)]
                        rfl
                  | true =>
                    rw [hpk, if_pos rfl] at h
                    rcases rest with _ | ⟨b1, _ | ⟨b2, rest2⟩⟩
                    · exact absurd hpk (by decide)
                    · rw [List.headD_cons, List.tail_cons] at hpk
                      rw [show (List.headD ([] : List Char) ' ' == 'u') = false from rfl,
                        Bool.and_false] at hpk
                      exact Bool.noConfusion hpk
                    · rw [List.headD_cons, List.tail_cons, List.headD_cons,
                        Bool.and_eq_true] at hpk
                      have hb1 : b1 = '\\' := by simpa using hpk.1
                      have hb2 : b2 = 'u' := by simpa using hpk.2
                      subst hb1
                      subst hb2
                      rcases rest2 with _ | ⟨g1, _ | ⟨g2, _ | ⟨g3, _ | ⟨g4, rest3⟩⟩⟩⟩
                      · exact Option.noConfusion h
                      · exact Option.noConfusion h
                      · exact Option.noConfusion h
                      · exact Option.noConfusion h
                      rw [List.tail_cons, List.tail_cons] at h
                      dsimp only at h
                      cases hghex : isHex g1 && isHex g2 && isHex g3 && isHex g4 with
                      | false =>
                        rw [hghex, if_neg (by simp : ¬ (false = true))] at h
                        exact Option.noConfusion h
                      | true =>
                        rw [hghex, if_pos rfl] at h
                        cases hlow : isLowSur (hex4 g1 g2 g3 g4) with
                        | true =>
                          rw [hlow, if_pos rfl] at h
                          obtain ⟨out2, hin, hout⟩ := map_cons_eq _ _ _ _ h
                          obtain ⟨c3, hdec, hc3ne, hc3last, hext⟩ := ih rest3 out2 r hin
                          subst hout
                          refine ⟨'\\' :: 'u' :: u1 :: u2 :: u3 :: u4 :: '\\' :: 'u' ::
                            g1 :: g2 :: g3 :: g4 :: c3, by rw [hdec]; rfl, by simp, ?_, ?_⟩
                          · rw [List.getLastD_cons, List.getLastD_cons, List.getLastD_cons,
                              List.getLastD_cons, List.getLastD_cons, List.getLastD_cons,
                              List.getLastD_cons, List.getLastD_cons, List.getLastD_cons,
                              List.getLastD_cons, List.getLastD_cons, List.getLastD_cons,
                              getLastD_ignore _ _ ' ' hc3ne]
                            exact hc3last
                          · intro t g hg
                            cases g with
                            | zero => simp at hg
                            | succ g =>
                              simp only [List.cons_append]
                              simp only [strBodyAux, List.headD_cons, List.tail_cons]
                              rw [hhex, if_pos rfl, hsur, if_pos rfl]
                              rw [hghex, if_pos rfl, hlow, if_pos rfl]
                              rw [hext t g (by simp only [List.length_cons] at hg; omega)]
                              rfl
                        | false =>
                          rw [hlow, if_neg (by simp : ¬ (false = true))] at h
                          obtain ⟨out2, hin, hout⟩ := map_cons_eq _ _ _ _ h
                          obtain ⟨c2, hdec, hc2ne, hc2last, hext⟩ := ih _ out2 r hin
                          subst hout
                          have hgx : (isHex g1 = true) ∧ (isHex g2 = true) ∧
                              (isHex g3 = true) ∧ (isHex g4 = true) := by
                            simp only [Bool.and_eq_true] at hghex
                            exact ⟨hghex.1.1.1, hghex.1.1.2, hghex.1.2, hghex.2⟩
                          have hstruct : ∃ c2x, c2 = '\\' :: 'u' :: g1 :: g2 :: g3 :: g4 :: c2x ∧
                              rest3 = c2x ++ r := by
                            obtain ⟨hg1, hg2, hg3, hg4⟩ := hgx
                            rcases c2 with _ | ⟨a1, _ | ⟨a2, _ | ⟨a3, _ | ⟨a4, _ | ⟨a5, _ | ⟨a6, c2x⟩⟩⟩⟩⟩⟩
                            · exact absurd rfl hc2ne
                            · simp only [List.cons_append, List.nil_append] at hdec
                              injection hdec with e1 h2
                              subst e1
                              simp only [List.getLastD_cons, List.getLastD_nil] at hc2last
                              exact absurd hc2last (by decide)
                            · simp only [List.cons_append, List.nil_append] at hdec
                              injection hdec with e1 h2
                              injection h2 with e2 h3
                              subst e1
                              subst e2
                              simp only [List.getLastD_cons, List.getLastD_nil] at hc2last
                              exact absurd hc2last (by decide)
                            · simp only [List.cons_append, List.nil_append] at hdec
                              injection hdec with e1 h2
                              injection h2 with e2 h3
                              injection h3 with e3 h4
                              subst e1
                              subst e2
                              subst e3
                              simp only [List.getLastD_cons, List.getLastD_nil] at hc2last
                              rw [hc2last] at hg1
                              exact absurd hg1 (by decide)
                            · simp only [List.cons_append, List.nil_append] at hdec
                              injection hdec with e1 h2
                              injection h2 with e2 h3
                              injection h3 with e3 h4
                              injection h4 with e4 h5
                              subst e1
                              subst e2
                              subst e3
                              subst e4
                              simp only [List.getLastD_cons, List.getLastD_nil] at hc2last
                              rw [hc2last] at hg2
                              exact absurd hg2 (by decide)
                            · simp only [List.cons_append, List.nil_append] at hdec
                              injection hdec with e1 h2
                              injection h2 with e2 h3
                              injection h3 with e3 h4
                              injection h4 with e4 h5
                              injection h5 with e5 h6
                              subst e1
                              subst e2
                              subst e3
                              subst e4
                              subst e5
                              simp only [List.getLastD_cons, List.getLastD_nil] at hc2last
                              rw [hc2last] at hg3
                              exact absurd hg3 (by decide)
                            · simp only [List.cons_append] at hdec
                              injection hdec with e1 h2
                              injection h2 with e2 h3
                              injection h3 with e3 h4
                              injection h4 with e4 h5
                              injection h5 with e5 h6
                              injection h6 with e6 h7
                              subst e1
                              subst e2
                              subst e3
                              subst e4
                              subst e5
                              subst e6
                              exact ⟨c2x, rfl, h7⟩
                          obtain ⟨c2x, hc2eq, hr3eq⟩ := hstruct
                          refine ⟨'\\' :: 'u' :: u1 :: u2 :: u3 :: u4 :: c2, ?_, by simp, ?_, ?_⟩
                          · rw [List.cons_append, List.cons_append, List.cons_append,
                              List.cons_append, List.cons_append, List.cons_append,
                              hc2eq, hr3eq]
                            simp
                          · rw [List.getLastD_cons, List.getLastD_cons, List.getLastD_cons,
                              List.getLastD_cons, List.getLastD_cons, List.getLastD_cons,
                              getLastD_ignore _ _ ' ' hc2ne]
                            exact hc2last
                          · intro t g hg
                            cases g with
                            | zero => simp at hg
                            | succ g =>
                              have hext2 := hext t g (by simp only [List.length_cons] at hg; omega)
                              rw [hc2eq] at hext2 ⊢
                              simp only [List.cons_append] at hext2
                              simp only [List.cons_append]
                              simp only [strBodyAux, List.headD_cons, List.tail_cons]
                              rw [hhex, if_pos rfl, hsur, if_pos rfl]
                              rw [hghex, if_pos rfl, hlow, if_neg (by simp : ¬ (false = true))]
                              rw [hext2]
                              rfl

theorem parseStrBody_spec (s out r : List Char) (h : parseStrBody s = some (out, r)) :
    ∃ cL, s = cL ++ r ∧ cL ≠ [] ∧ cL.getLastD ' ' = '"' ∧
      ∀ t, parseStrBody (cL ++ t) = some (out, t) := by
  obtain ⟨cL, hdec, hne, hlast, hext⟩ := strBody_spec s.length s out r h
  refine ⟨cL, hdec, hne, hlast, ?_⟩
  intro t
  unfold parseStrBody
  exact hext t (cL ++ t).length (by rw [List.length_append]; omega)

theorem map_out_eq {β γ : Type} (X : Option (β × List Char)) (fo : β → γ) (v : γ)
    (r : List Char) (h : (X.map fun p => (fo p.1, p.2)) = some (v, r)) :
    ∃ o2, X = some (o2, r) ∧ v = fo o2 := by
  cases X with
  | none => exact Option.noConfusion h
  | some p =>
    obtain ⟨o2, r2⟩ := p
    simp only [Option.map_some', Option.some.injEq, Prod.mk.injEq] at h
    exact ⟨o2, by rw [h.2], h.1.symm⟩

theorem map_const_eq {γ : Type} (X : Option (List Char)) (k : γ) (v : γ) (r : List Char)
    (h : (X.map fun rr => (k, rr)) = some (v, r)) : X = some r ∧ v = k := by
  cases X with
  | none => exact Option.noConfusion h
  | some r2 =>
    simp only [Option.map_some', Option.some.injEq, Prod.mk.injEq] at h
    exact ⟨by rw [h.2], h.1.symm⟩

theorem pws_digit_false (c : Char) (hd : c.isDigit = true) : pws c = false := by
  cases hq : pws c with
  | false => rfl
  | true =>
    exfalso
    simp only [pws, Bool.or_eq_true, beq_iff_eq] at hq
    rcases hq with ((((rfl | rfl) | rfl) | rfl) | rfl) | rfl <;> exact absurd hd (by decide)

theorem dropWhile_decomp (p : Char → Bool) (l : List Char) (c : Char)
    (hc : (l.dropWhile p).headD ' ' = c) (hne : l.dropWhile p ≠ []) :
    l = l.takeWhile p ++ (c :: (l.dropWhile p).tail) ∧ p c = false := by
  constructor
  · conv_lhs => rw [← List.takeWhile_append_dropWhile (p := p) (l := l)]
    congr 1
    cases hd : l.dropWhile p with
    | nil => exact absurd hd hne
    | cons x xs =>
      rw [hd] at hc
      rw [List.headD_cons] at hc
      rw [List.tail_cons, hc]
  · rw [← hc]
    exact headD_dropWhile_false p l ' ' hne

theorem dropWhile_ne_nil_of_headD (p : Char → Bool) (l : List Char) (c : Char)
    (hc : (l.dropWhile p).headD ' ' = c) (hcs : c ≠ ' ') : l.dropWhile p ≠ [] := by
  intro he
  rw [he] at hc
  exact hcs hc.symm

theorem takeWhile_all (p : Char → Bool) (l : List Char) :
    ∀ x ∈ l.takeWhile p, p x = true := fun _ hx => List.mem_takeWhile_imp hx

theorem isPrefixOf_cons_cons (a b : Char) (as bs : List Char) :
    (a :: as).isPrefixOf (b :: bs) = (a == b && as.isPrefixOf bs) := rfl

theorem dropWhile_decomp2 (p : Char → Bool) (l : List Char) (c : Char)
    (hc : (l.dropWhile p).headD ' ' = c) (hcs : c ≠ ' ') :
    ∃ tk dwt, l = tk ++ (c :: dwt) ∧ (∀ x ∈ tk, p x = true) ∧
      dwt = (l.dropWhile p).tail ∧ p c = false := by
  have hne := dropWhile_ne_nil_of_headD p l c hc hcs
  obtain ⟨hd, hp⟩ := dropWhile_decomp p l c hc hne
  exact ⟨l.takeWhile p, (l.dropWhile p).tail, hd, takeWhile_all p l, rfl, hp⟩

theorem elemsLoop_spec (pv : Nat → List Char → Option (JValue × List Char)) (f : Nat)
    (ihf : ∀ s v r, pv f s = some (v, r) → ∃ cL, s = cL ++ r ∧ cL ≠ [] ∧
      pws (cL.headD ' ') = false ∧ pws (cL.getLastD ' ') = false ∧
      ∀ t g, ExtOk t → cL.length ≤ g → pv g (cL ++ t) = some (v, t)) :
    ∀ fl s vs r, elemsLoop (pv f) fl s = some (vs, r) →
      ∃ cL, s = cL ++ r ∧ cL ≠ [] ∧ pws (cL.headD ' ') = false ∧
        cL.getLastD ' ' = ']' ∧
        ∀ t gv gl, ExtOk t → cL.length ≤ gv → cL.length ≤ gl →
          elemsLoop (pv gv) gl (cL ++ t) = some (vs, t) := by
  intro fl
  induction fl with
  | zero => intro s vs r h; exact Option.noConfusion h
  | succ fl ihl =>
    intro s vs r h
    simp only [elemsLoop] at h
    cases hv : pv f s with
    | none => rw [hv] at h; exact Option.noConfusion h
    | some p =>
      obtain ⟨v0, r0⟩ := p
      rw [hv] at h
      dsimp only at h
      obtain ⟨cV, hsV, hVne, hVhead, hVlast, extV⟩ := ihf s v0 r0 hv
      cases hbr : (r0.dropWhile jws).headD ' ' == ']' with
      | true =>
        rw [hbr, if_pos rfl] at h
        simp only [Option.some.injEq, Prod.mk.injEq] at h
        obtain ⟨hvs, hr⟩ := h
        have hbr2 : (r0.dropWhile jws).headD ' ' = ']' := by simpa using hbr
        obtain ⟨tk, dwt, hdec1, htkall, hdwt, _⟩ := dropWhile_decomp2 jws r0 ']' hbr2 (by decide)
        have hdwtr : dwt = r := by rw [hdwt]; exact hr
        refine ⟨cV ++ (tk ++ [']']), ?_, ?_, ?_, ?_, ?_⟩
        · rw [hsV, hdec1, ← hdwtr]
          simp [List.append_assoc]
        · exact fun hc => hVne (List.append_eq_nil.mp hc).1
        · rw [headD_append_left _ _ _ hVne]; exact hVhead
        · rw [getLastD_append_right _ _ _ (by simp), getLastD_append_right _ _ _ (by simp)]
          rfl
        · intro t gv gl ht hgv hgl
          rw [← hvs]
          cases gl with
          | zero =>
            exfalso
            have h0 := Nat.le_zero.mp hgl
            rw [List.length_eq_zero] at h0
            exact hVne (List.append_eq_nil.mp h0).1
          | succ gl2 =>
            simp only [elemsLoop]
            rw [List.append_assoc]
            have hext : ExtOk ((tk ++ [']']) ++ t) := by
              rw [List.append_assoc]
              exact extOk_ws_append tk _ htkall (extOk_cons ']' t (by decide))
            have hlenV : cV.length ≤ gv :=
              le_trans (by rw [List.length_append]; omega) hgv
            rw [extV ((tk ++ [']']) ++ t) gv hext hlenV]
            dsimp only
            rw [List.append_assoc, dropWhile_append_all jws tk _ htkall]
            rw [List.singleton_append, List.dropWhile_cons_of_neg (by decide)]
            rw [List.headD_cons]
            rfl
      | false =>
        rw [hbr, if_neg (by simp : ¬ (false = true))] at h
        cases hbr2 : (r0.dropWhile jws).headD ' ' == ',' with
        | false =>
          rw [hbr2, if_neg (by simp : ¬ (false = true))] at h
          exact Option.noConfusion h
        | true =>
          rw [hbr2, if_pos rfl] at h
          cases hrec : elemsLoop (pv f) fl (((r0.dropWhile jws).tail).dropWhile jws) with
          | none => rw [hrec] at h; exact Option.noConfusion h
          | some q =>
            obtain ⟨vs2, r3⟩ := q
            rw [hrec] at h
            dsimp only at h
            simp only [Option.some.injEq, Prod.mk.injEq] at h
            obtain ⟨hvs, hr3⟩ := h
            obtain ⟨cE2, hsE2, hE2ne, hE2head, hE2last, extE2⟩ := ihl _ _ _ hrec
            have hbrc : (r0.dropWhile jws).headD ' ' = ',' := by simpa using hbr2
            obtain ⟨tk, dwt, hdec1, htkall, hdwt, _⟩ := dropWhile_decomp2 jws r0 ',' hbrc (by decide)
            have hdwt2 : dwt.dropWhile jws = cE2 ++ r3 := by rw [hdwt]; exact hsE2
            have hsplit : dwt = dwt.takeWhile jws ++ (cE2 ++ r3) := by
              conv_lhs => rw [← List.takeWhile_append_dropWhile (p := jws) (l := dwt)]
              rw [hdwt2]
            obtain ⟨tk2, htk2all, hdwtsplit⟩ :
                ∃ tk2, (∀ x ∈ tk2, jws x = true) ∧ dwt = tk2 ++ (cE2 ++ r3) :=
              ⟨dwt.takeWhile jws, takeWhile_all jws dwt, hsplit⟩
            refine ⟨cV ++ (tk ++ (',' :: (tk2 ++ cE2))), ?_, ?_, ?_, ?_, ?_⟩
            · rw [hsV, hdec1, hdwtsplit, ← hr3]
              simp [List.append_assoc]
            · exact fun hc => hVne (List.append_eq_nil.mp hc).1
            · rw [headD_append_left _ _ _ hVne]; exact hVhead
            · rw [getLastD_append_right _ _ _ (by simp)]
              rw [getLastD_append_right _ _ _ (by simp)]
              rw [List.getLastD_cons]
              rw [getLastD_append_right _ _ _ hE2ne]
              rw [getLastD_ignore cE2 ',' ' ' hE2ne]
              exact hE2last
            · intro t gv gl ht hgv hgl
              rw [← hvs]
              cases gl with
              | zero =>
                exfalso
                have h0 := Nat.le_zero.mp hgl
                rw [List.length_eq_zero] at h0
                exact hVne (List.append_eq_nil.mp h0).1
              | succ gl2 =>
                simp only [elemsLoop]
                rw [List.append_assoc]
                have hext : ExtOk ((tk ++ (',' :: (tk2 ++ cE2))) ++ t) := by
                  rw [List.append_assoc]
                  exact extOk_ws_append tk _ htkall (extOk_cons ',' _ (by decide))
                have hcVpos : 0 < cV.length := List.length_pos.mpr hVne
                have hE2pos : 0 < cE2.length := List.length_pos.mpr hE2ne
                simp only [List.length_append, List.length_cons] at hgv hgl
                rw [extV ((tk ++ (',' :: (tk2 ++ cE2))) ++ t) gv hext (by omega)]
                dsimp only
                rw [List.append_assoc, dropWhile_append_all jws tk _ htkall]
                rw [List.cons_append, List.dropWhile_cons_of_neg (by decide), List.headD_cons]
                rw [if_neg (show ¬ ((',' == ']') = true) by decide)]
                rw [if_pos (show ((',' == ',') = true) from rfl), List.tail_cons]
                rw [List.append_assoc, dropWhile_append_all jws tk2 _ htk2all]
                rw [dropWhile_of_headD_neg jws (cE2 ++ t)
                  (Or.inr (by rw [headD_append_left _ _ _ hE2ne]
                              exact pws_false_imp_jws _ hE2head))]
                rw [extE2 t gv gl2 ht (by omega) (by omega)]

theorem membersLoop_spec (pv : Nat → List Char → Option (JValue × List Char)) (f : Nat)
    (ihf : ∀ s v r, pv f s = some (v, r) → ∃ cL, s = cL ++ r ∧ cL ≠ [] ∧
      pws (cL.headD ' ') = false ∧ pws (cL.getLastD ' ') = false ∧
      ∀ t g, ExtOk t → cL.length ≤ g → pv g (cL ++ t) = some (v, t)) :
    ∀ fl s ms r, membersLoop (pv f) fl s = some (ms, r) →
      ∃ cL, s = cL ++ r ∧ cL ≠ [] ∧ cL.headD ' ' = '"' ∧
        cL.getLastD ' ' = '}' ∧
        ∀ t gv gl, ExtOk t → cL.length ≤ gv → cL.length ≤ gl →
          membersLoop (pv gv) gl (cL ++ t) = some (ms, t) := by
  intro fl
  induction fl with
  | zero => intro s ms r h; exact Option.noConfusion h
  | succ fl ihl =>
    intro s ms r h
    simp only [membersLoop] at h
    cases s with
    | nil =>
      rw [if_neg (show ¬ ((List.headD [] ' ' == '"') = true) by decide)] at h
      exact Option.noConfusion h
    | cons c0 cs0 =>
      rw [List.headD_cons] at h
      cases hq : c0 == '"' with
      | false =>
        rw [hq, if_neg (by simp : ¬ (false = true))] at h
        exact Option.noConfusion h
      | true =>
        rw [hq, if_pos rfl] at h
        have hc0 : c0 = '"' := by simpa using hq
        subst hc0
        rw [List.tail_cons] at h
        cases hk : parseStrBody cs0 with
        | none => rw [hk] at h; exact Option.noConfusion h
        | some pk =>
          obtain ⟨k0, r0⟩ := pk
          rw [hk] at h
          dsimp only at h
          obtain ⟨cK, hcsK, hKne, hKlast, extK⟩ := parseStrBody_spec cs0 k0 r0 hk
          cases hcol : (r0.dropWhile jws).headD ' ' == ':' with
          | false =>
            rw [hcol, if_neg (by simp : ¬ (false = true))] at h
            exact Option.noConfusion h
          | true =>
            rw [hcol, if_pos rfl] at h
            have hcol2 : (r0.dropWhile jws).headD ' ' = ':' := by simpa using hcol
            obtain ⟨tkc, dwc, hdecC, htkcall, hdwc, _⟩ :=
              dropWhile_decomp2 jws r0 ':' hcol2 (by decide)
            cases hv : pv f ((r0.dropWhile jws).tail.dropWhile jws) with
            | none => rw [hv] at h; exact Option.noConfusion h
            | some pvv =>
              obtain ⟨v0, r3⟩ := pvv
              rw [hv] at h
              dsimp only at h
              obtain ⟨cV, hsV, hVne, hVhead, hVlast, extV⟩ := ihf _ _ _ hv
              have hdwcV : dwc.dropWhile jws = cV ++ r3 := by rw [hdwc]; exact hsV
              have hsplitC : dwc = dwc.takeWhile jws ++ (cV ++ r3) := by
                conv_lhs => rw [← List.takeWhile_append_dropWhile (p := jws) (l := dwc)]
                rw [hdwcV]
              obtain ⟨tk2, htk2all, hdwcsplit⟩ :
                  ∃ tk2, (∀ x ∈ tk2, jws x = true) ∧ dwc = tk2 ++ (cV ++ r3) :=
                ⟨dwc.takeWhile jws, takeWhile_all jws dwc, hsplitC⟩
              cases hcls : (r3.dropWhile jws).headD ' ' == '}' with
              | true =>
                rw [hcls, if_pos rfl] at h
                simp only [Option.some.injEq, Prod.mk.injEq] at h
                obtain ⟨hms, hr⟩ := h
                have hcls2 : (r3.dropWhile jws).headD ' ' = '}' := by simpa using hcls
                obtain ⟨tk3, dw3, hdec3, htk3all, hdw3, _⟩ :=
                  dropWhile_decomp2 jws r3 '}' hcls2 (by decide)
                have hdw3r : dw3 = r := by rw [hdw3]; exact hr
                refine ⟨'"' :: (cK ++ (tkc ++ (':' :: (tk2 ++ (cV ++ (tk3 ++ ['}'])))))),
                  ?_, ?_, ?_, ?_, ?_⟩
                · rw [hcsK, hdecC, hdwcsplit, hdec3, ← hdw3r]
                  simp [List.append_assoc]
                · exact List.cons_ne_nil _ _
                · rfl
                · rw [List.getLastD_cons]
                  rw [getLastD_append_right _ _ _ (by simp)]
                  rw [getLastD_append_right _ _ _ (by simp)]
                  rw [List.getLastD_cons]
                  rw [getLastD_append_right _ _ _ (by simp)]
                  rw [getLastD_append_right _ _ _ (by simp)]
                  rw [getLastD_append_right _ _ _ (by simp)]
                  rfl
                · intro t gv gl ht hgv hgl
                  rw [← hms]
                  cases gl with
                  | zero => simp at hgl
                  | succ gl2 =>
                    simp only [membersLoop]
                    rw [List.cons_append, List.headD_cons]
                    rw [if_pos (show (('"' == '"') = true) from rfl), List.tail_cons]
                    rw [List.append_assoc]
                    rw [extK ((tkc ++ (':' :: (tk2 ++ (cV ++ (tk3 ++ ['}']))))) ++ t)]
                    dsimp only
                    rw [List.append_assoc, dropWhile_append_all jws tkc _ htkcall]
                    rw [List.cons_append, List.dropWhile_cons_of_neg (by decide), List.headD_cons]
                    rw [if_pos (show ((':' == ':') = true) from rfl), List.tail_cons]
                    rw [List.append_assoc, dropWhile_append_all jws tk2 _ htk2all]
                    rw [List.append_assoc]
                    rw [dropWhile_of_headD_neg jws (cV ++ ((tk3 ++ ['}']) ++ t))
                      (Or.inr (by rw [headD_append_left _ _ _ hVne]
                                  exact pws_false_imp_jws _ hVhead))]
                    have hextX : ExtOk ((tk3 ++ ['}']) ++ t) := by
                      rw [List.append_assoc]
                      exact extOk_ws_append tk3 _ htk3all (extOk_cons '}' t (by decide))
                    have hcVpos : 0 < cV.length := List.length_pos.mpr hVne
                    simp only [List.length_cons, List.length_append] at hgv hgl
                    rw [extV ((tk3 ++ ['}']) ++ t) gv hextX (by omega)]
                    dsimp only
                    rw [List.append_assoc, dropWhile_append_all jws tk3 _ htk3all]
                    rw [List.singleton_append, List.dropWhile_cons_of_neg (by decide),
                      List.headD_cons]
                    rw [if_pos (show (('}' == '}') = true) from rfl), List.tail_cons]
              | false =>
                rw [hcls, if_neg (by simp : ¬ (false = true))] at h
                cases hcm : (r3.dropWhile jws).headD ' ' == ',' with
                | false =>
                  rw [hcm, if_neg (by simp : ¬ (false = true))] at h
                  exact Option.noConfusion h
                | true =>
                  rw [hcm, if_pos rfl] at h
                  cases hrec : membersLoop (pv f) fl ((r3.dropWhile jws).tail.dropWhile jws) with
                  | none => rw [hrec] at h; exact Option.noConfusion h
                  | some q =>
                    obtain ⟨ms2, r5⟩ := q
                    rw [hrec] at h
                    dsimp only at h
                    simp only [Option.some.injEq, Prod.mk.injEq] at h
                    obtain ⟨hms, hr5⟩ := h
                    obtain ⟨cM2, hsM2, hM2ne, hM2head, hM2last, extM2⟩ := ihl _ _ _ hrec
                    have hcm2 : (r3.dropWhile jws).headD ' ' = ',' := by simpa using hcm
                    obtain ⟨tk3, dw3, hdec3, htk3all, hdw3, _⟩ :=
                      dropWhile_decomp2 jws r3 ',' hcm2 (by decide)
                    have hdw3M : dw3.dropWhile jws = cM2 ++ r5 := by rw [hdw3]; exact hsM2
                    have hsplit3 : dw3 = dw3.takeWhile jws ++ (cM2 ++ r5) := by
                      conv_lhs => rw [← List.takeWhile_append_dropWhile (p := jws) (l := dw3)]
                      rw [hdw3M]
                    obtain ⟨tk4, htk4all, hdw3split⟩ :
                        ∃ tk4, (∀ x ∈ tk4, jws x = true) ∧ dw3 = tk4 ++ (cM2 ++ r5) :=
                      ⟨dw3.takeWhile jws, takeWhile_all jws dw3, hsplit3⟩
                    refine ⟨'"' :: (cK ++ (tkc ++ (':' :: (tk2 ++ (cV ++
                      (tk3 ++ (',' :: (tk4 ++ cM2)))))))), ?_, ?_, ?_, ?_, ?_⟩
                    · rw [hcsK, hdecC, hdwcsplit, hdec3, hdw3split, ← hr5]
                      simp [List.append_assoc]
                    · exact List.cons_ne_nil _ _
                    · rfl
                    · rw [List.getLastD_cons]
                      rw [getLastD_append_right _ _ _ (by simp)]
                      rw [getLastD_append_right _ _ _ (by simp)]
                      rw [List.getLastD_cons]
                      rw [getLastD_append_right _ _ _ (by simp)]
                      rw [getLastD_append_right _ _ _ (by simp)]
                      rw [getLastD_append_right _ _ _ (by simp)]
                      rw [List.getLastD_cons]
                      rw [getLastD_append_right _ _ _ hM2ne]
                      rw [getLastD_ignore cM2 ',' ' ' hM2ne]
                      exact hM2last
                    · intro t gv gl ht hgv hgl
                      rw [← hms]
                      cases gl with
                      | zero => simp at hgl
                      | succ gl2 =>
                        simp only [membersLoop]
                        rw [List.cons_append, List.headD_cons]
                        rw [if_pos (show (('"' == '"') = true) from rfl), List.tail_cons]
                        rw [List.append_assoc]
                        rw [extK ((tkc ++ (':' :: (tk2 ++ (cV ++
                          (tk3 ++ (',' :: (tk4 ++ cM2))))))) ++ t)]
                        dsimp only
                        rw [List.append_assoc, dropWhile_append_all jws tkc _ htkcall]
                        rw [List.cons_append, List.dropWhile_cons_of_neg (by decide),
                          List.headD_cons]
                        rw [if_pos (show ((':' == ':') = true) from rfl), List.tail_cons]
                        rw [List.append_assoc, dropWhile_append_all jws tk2 _ htk2all]
                        rw [List.append_assoc]
                        rw [dropWhile_of_headD_neg jws (cV ++ ((tk3 ++ (',' :: (tk4 ++ cM2))) ++ t))
                          (Or.inr (by rw [headD_append_left _ _ _ hVne]
                                      exact pws_false_imp_jws _ hVhead))]
                        have hextX : ExtOk ((tk3 ++ (',' :: (tk4 ++ cM2))) ++ t) := by
                          rw [List.append_assoc]
                          exact extOk_ws_append tk3 _ htk3all (extOk_cons ',' _ (by decide))
                        have hcVpos : 0 < cV.length := List.length_pos.mpr hVne
                        have hM2pos : 0 < cM2.length := List.length_pos.mpr hM2ne
                        simp only [List.length_cons, List.length_append] at hgv hgl
                        rw [extV ((tk3 ++ (',' :: (tk4 ++ cM2))) ++ t) gv hextX (by omega)]
                        dsimp only
                        rw [List.append_assoc, dropWhile_append_all jws tk3 _ htk3all]
                        rw [List.cons_append, List.dropWhile_cons_of_neg (by decide),
                          List.headD_cons]
                        rw [if_neg (show ¬ ((',' == '}') = true) by decide)]
                        rw [if_pos (show ((',' == ',') = true) from rfl), List.tail_cons]
                        rw [List.append_assoc, dropWhile_append_all jws tk4 _ htk4all]
                        rw [dropWhile_of_headD_neg jws (cM2 ++ t)
                          (Or.inr (by rw [headD_append_left _ _ _ hM2ne, hM2head]; decide))]
                        rw [extM2 t gv gl2 ht (by omega) (by omega)]

theorem parseVal_spec :
    ∀ f s v r, parseVal f s = some (v, r) →
      ∃ cL, s = cL ++ r ∧ cL ≠ [] ∧ pws (cL.headD ' ') = false ∧
        pws (cL.getLastD ' ') = false ∧
        ∀ t g, ExtOk t → cL.length ≤ g → parseVal g (cL ++ t) = some (v, t) := by
  intro f
  induction f with
  | zero => intro s v r h; exact Option.noConfusion h
  | succ f ihf =>
    intro s v r h
    simp only [parseVal] at h
    unfold parseValCore at h
    cases s with
    | nil => exact Option.noConfusion h
    | cons ch cs =>
      dsimp only at h
      cases hc1 : ch == '"' with
      | true =>
        have hch : ch = '"' := by simpa using hc1
        rw [hc1, if_pos rfl] at h
        obtain ⟨o2, hpsb, hvv⟩ := map_out_eq _ JValue.jstr _ _ h
        obtain ⟨cK, hcsK, hKne, hKlast, extK⟩ := parseStrBody_spec cs o2 r hpsb
        subst hch
        refine ⟨'"' :: cK, ?_, ?_, ?_, ?_, ?_⟩
        · rw [hcsK]; rfl
        · exact List.cons_ne_nil _ _
        · rw [List.headD_cons]; decide
        · rw [List.getLastD_cons, getLastD_ignore cK '"' ' ' hKne, hKlast]
          decide
        · intro t g ht hg
          rw [hvv]
          cases g with
          | zero => simp at hg
          | succ g2 =>
            simp only [parseVal]
            rw [List.cons_append]
            unfold parseValCore
            dsimp only
            rw [if_pos (show (('"' == '"') = true) from rfl)]
            rw [extK t]
            rfl
      | false =>
        rw [hc1, if_neg (by simp : ¬ (false = true))] at h
        cases hc2 : ch == '[' with
        | true =>
          have hch : ch = '[' := by simpa using hc2
          rw [hc2, if_pos rfl] at h
          cases hbr : (cs.dropWhile jws).headD ' ' == ']' with
          | true =>
            rw [hbr, if_pos rfl] at h
            simp only [Option.some.injEq, Prod.mk.injEq] at h
            obtain ⟨hv0, hr⟩ := h
            have hbr2 : (cs.dropWhile jws).headD ' ' = ']' := by simpa using hbr
            obtain ⟨tk, dwt, hdec1, htkall, hdwt, _⟩ :=
              dropWhile_decomp2 jws cs ']' hbr2 (by decide)
            have hdwtr : dwt = r := by rw [hdwt]; exact hr
            subst hch
            refine ⟨'[' :: (tk ++ [']']), ?_, ?_, ?_, ?_, ?_⟩
            · rw [hdec1, ← hdwtr]
              simp [List.append_assoc]
            · exact List.cons_ne_nil _ _
            · rw [List.headD_cons]; decide
            · rw [List.getLastD_cons, getLastD_append_right _ _ _ (by simp)]
              decide
            · intro t g ht hg
              rw [← hv0]
              cases g with
              | zero => simp at hg
              | succ g2 =>
                simp only [parseVal]
                rw [List.cons_append]
                unfold parseValCore
                dsimp only
                rw [if_neg (show ¬ (('[' == '"') = true) by decide)]
                rw [if_pos (show (('[' == '[') = true) from rfl)]
                rw [List.append_assoc, dropWhile_append_all jws tk _ htkall]
                rw [List.singleton_append, List.dropWhile_cons_of_neg (by decide),
                  List.headD_cons]
                rw [if_pos (show ((']' == ']') = true) from rfl), List.tail_cons]
          | false =>
            rw [hbr, if_neg (by simp : ¬ (false = true))] at h
            obtain ⟨vs0, hel, hvv⟩ := map_out_eq _ JValue.jarr _ _ h
            obtain ⟨cE, hsE, hEne, hEhead, hElast, extE⟩ :=
              elemsLoop_spec parseVal f ihf f (cs.dropWhile jws) vs0 r hel
            have hsplit : cs = cs.takeWhile jws ++ (cE ++ r) := by
              conv_lhs => rw [← List.takeWhile_append_dropWhile (p := jws) (l := cs)]
              rw [hsE]
            obtain ⟨tk, htkall, hcs2⟩ :
                ∃ tk, (∀ x ∈ tk, jws x = true) ∧ cs = tk ++ (cE ++ r) :=
              ⟨cs.takeWhile jws, takeWhile_all jws cs, hsplit⟩
            subst hch
            refine ⟨'[' :: (tk ++ cE), ?_, ?_, ?_, ?_, ?_⟩
            · rw [hcs2]; simp [List.append_assoc]
            · exact List.cons_ne_nil _ _
            · rw [List.headD_cons]; decide
            · rw [List.getLastD_cons, getLastD_append_right _ _ _ hEne,
                getLastD_ignore cE '[' ' ' hEne, hElast]
              decide
            · intro t g ht hg
              rw [hvv]
              cases g with
              | zero => simp at hg
              | succ g2 =>
                simp only [parseVal]
                rw [List.cons_append]
                unfold parseValCore
                dsimp only
                rw [if_neg (show ¬ (('[' == '"') = true) by decide)]
                rw [if_pos (show (('[' == '[') = true) from rfl)]
                rw [List.append_assoc, dropWhile_append_all jws tk _ htkall]
                rw [dropWhile_of_headD_neg jws (cE ++ t)
                  (Or.inr (by rw [headD_append_left _ _ _ hEne]
                              exact pws_false_imp_jws _ hEhead))]
                rw [headD_append_left cE t ' ' hEne]
                have hbrE : (cE.headD ' ' == ']') = false := by
                  rw [← headD_append_left cE r ' ' hEne, ← hsE]
                  exact hbr
                rw [hbrE, if_neg (by simp : ¬ (false = true))]
                simp only [List.length_cons, List.length_append] at hg
                rw [extE t g2 g2 ht (by omega) (by omega)]
                rfl
        | false =>
          rw [hc2, if_neg (by simp : ¬ (false = true))] at h
          cases hc3 : ch == '{' with
          | true =>
            have hch : ch = '{' := by simpa using hc3
            rw [hc3, if_pos rfl] at h
            cases hbr : (cs.dropWhile jws).headD ' ' == '}' with
            | true =>
              rw [hbr, if_pos rfl] at h
              simp only [Option.some.injEq, Prod.mk.injEq] at h
              obtain ⟨hv0, hr⟩ := h
              have hbr2 : (cs.dropWhile jws).headD ' ' = '}' := by simpa using hbr
              obtain ⟨tk, dwt, hdec1, htkall, hdwt, _⟩ :=
                dropWhile_decomp2 jws cs '}' hbr2 (by decide)
              have hdwtr : dwt = r := by rw [hdwt]; exact hr
              subst hch
              refine ⟨'{' :: (tk ++ ['}']), ?_, ?_, ?_, ?_, ?_⟩
              · rw [hdec1, ← hdwtr]
                simp [List.append_assoc]
              · exact List.cons_ne_nil _ _
              · rw [List.headD_cons]; decide
              · rw [List.getLastD_cons, getLastD_append_right _ _ _ (by simp)]
                decide
              · intro t g ht hg
                rw [← hv0]
                cases g with
                | zero => simp at hg
                | succ g2 =>
                  simp only [parseVal]
                  rw [List.cons_append]
                  unfold parseValCore
                  dsimp only
                  rw [if_neg (show ¬ (('{' == '"') = true) by decide)]
                  rw [if_neg (show ¬ (('{' == '[') = true) by decide)]
                  rw [if_pos (show (('{' == '{') = true) from rfl)]
                  rw [List.append_assoc, dropWhile_append_all jws tk _ htkall]
                  rw [List.singleton_append, List.dropWhile_cons_of_neg (by decide),
                    List.headD_cons]
                  rw [if_pos (show (('}' == '}') = true) from rfl), List.tail_cons]
            | false =>
              rw [hbr, if_neg (by simp : ¬ (false = true))] at h
              obtain ⟨ms0, hel, hvv⟩ := map_out_eq _ JValue.jobj _ _ h
              obtain ⟨cM, hsM, hMne, hMhead, hMlast, extM⟩ :=
                membersLoop_spec parseVal f ihf f (cs.dropWhile jws) ms0 r hel
              have hsplit : cs = cs.takeWhile jws ++ (cM ++ r) := by
                conv_lhs => rw [← List.takeWhile_append_dropWhile (p := jws) (l := cs)]
                rw [hsM]
              obtain ⟨tk, htkall, hcs2⟩ :
                  ∃ tk, (∀ x ∈ tk, jws x = true) ∧ cs = tk ++ (cM ++ r) :=
                ⟨cs.takeWhile jws, takeWhile_all jws cs, hsplit⟩
              subst hch
              refine ⟨'{' :: (tk ++ cM), ?_, ?_, ?_, ?_, ?_⟩
              · rw [hcs2]; simp [List.append_assoc]
              · exact List.cons_ne_nil _ _
              · rw [List.headD_cons]; decide
              · rw [List.getLastD_cons, getLastD_append_right _ _ _ hMne,
                  getLastD_ignore cM '{' ' ' hMne, hMlast]
                decide
              · intro t g ht hg
                rw [hvv]
                cases g with
                | zero => simp at hg
                | succ g2 =>
                  simp only [parseVal]
                  rw [List.cons_append]
                  unfold parseValCore
                  dsimp only
                  rw [if_neg (show ¬ (('{' == '"') = true) by decide)]
                  rw [if_neg (show ¬ (('{' == '[') = true) by decide)]
                  rw [if_pos (show (('{' == '{') = true) from rfl)]
                  rw [List.append_assoc, dropWhile_append_all jws tk _ htkall]
                  rw [dropWhile_of_headD_neg jws (cM ++ t)
                    (Or.inr (by rw [headD_append_left _ _ _ hMne, hMhead]; decide))]
                  rw [headD_append_left cM t ' ' hMne]
                  have hbrM : (cM.headD ' ' == '}') = false := by
                    rw [← headD_append_left cM r ' ' hMne, ← hsM]
                    exact hbr
                  rw [hbrM, if_neg (by simp : ¬ (false = true))]
                  simp only [List.length_cons, List.length_append] at hg
                  rw [extM t g2 g2 ht (by omega) (by omega)]
                  rfl
          | false =>
            rw [hc3, if_neg (by simp : ¬ (false = true))] at h
            cases hc4 : ch == 't' with
            | true =>
              have hch : ch = 't' := by simpa using hc4
              rw [hc4, if_pos rfl] at h
              obtain ⟨hel, hvv⟩ := map_const_eq _ _ _ _ h
              have hcs : cs = "rue".data ++ r := expectL_eq _ _ _ hel
              subst hch
              refine ⟨'t' :: "rue".data, ?_, ?_, ?_, ?_, ?_⟩
              · rw [hcs]; rfl
              · exact List.cons_ne_nil _ _
              · rw [List.headD_cons]; decide
              · decide
              · intro t g ht hg
                rw [hvv]
                cases g with
                | zero => simp at hg
                | succ g2 =>
                  simp only [parseVal]
                  rw [List.cons_append]
                  unfold parseValCore
                  dsimp only
                  rw [if_neg (show ¬ (('t' == '"') = true) by decide)]
                  rw [if_neg (show ¬ (('t' == '[') = true) by decide)]
                  rw [if_neg (show ¬ (('t' == '{') = true) by decide)]
                  rw [if_pos (show (('t' == 't') = true) from rfl)]
                  rw [expectL_self_append]
                  rfl
            | false =>
              rw [hc4, if_neg (by simp : ¬ (false = true))] at h
              cases hc5 : ch == 'f' with
              | true =>
                have hch : ch = 'f' := by simpa using hc5
                rw [hc5, if_pos rfl] at h
                obtain ⟨hel, hvv⟩ := map_const_eq _ _ _ _ h
                have hcs : cs = "alse".data ++ r := expectL_eq _ _ _ hel
                subst hch
                refine ⟨'f' :: "alse".data, ?_, ?_, ?_, ?_, ?_⟩
                · rw [hcs]; rfl
                · exact List.cons_ne_nil _ _
                · rw [List.headD_cons]; decide
                · decide
                · intro t g ht hg
                  rw [hvv]
                  cases g with
                  | zero => simp at hg
                  | succ g2 =>
                    simp only [parseVal]
                    rw [List.cons_append]
                    unfold parseValCore
                    dsimp only
                    rw [if_neg (show ¬ (('f' == '"') = true) by decide)]
                    rw [if_neg (show ¬ (('f' == '[') = true) by decide)]
                    rw [if_neg (show ¬ (('f' == '{') = true) by decide)]
                    rw [if_neg (show ¬ (('f' == 't') = true) by decide)]
                    rw [if_pos (show (('f' == 'f') = true) from rfl)]
                    rw [expectL_self_append]
                    rfl
              | false =>
                rw [hc5, if_neg (by simp : ¬ (false = true))] at h
                cases hc6 : ch == 'n' with
                | true =>
                  have hch : ch = 'n' := by simpa using hc6
                  rw [hc6, if_pos rfl] at h
                  obtain ⟨hel, hvv⟩ := map_const_eq _ _ _ _ h
                  have hcs : cs = "ull".data ++ r := expectL_eq _ _ _ hel
                  subst hch
                  refine ⟨'n' :: "ull".data, ?_, ?_, ?_, ?_, ?_⟩
                  · rw [hcs]; rfl
                  · exact List.cons_ne_nil _ _
                  · rw [List.headD_cons]; decide
                  · decide
                  · intro t g ht hg
                    rw [hvv]
                    cases g with
                    | zero => simp at hg
                    | succ g2 =>
                      simp only [parseVal]
                      rw [List.cons_append]
                      unfold parseValCore
                      dsimp only
                      rw [if_neg (show ¬ (('n' == '"') = true) by decide)]
                      rw [if_neg (show ¬ (('n' == '[') = true) by decide)]
                      rw [if_neg (show ¬ (('n' == '{') = true) by decide)]
                      rw [if_neg (show ¬ (('n' == 't') = true) by decide)]
                      rw [if_neg (show ¬ (('n' == 'f') = true) by decide)]
                      rw [if_pos (show (('n' == 'n') = true) from rfl)]
                      rw [expectL_self_append]
                      rfl
                | false =>
                  rw [hc6, if_neg (by simp : ¬ (false = true))] at h
                  cases hc7 : ch == 'N' with
                  | true =>
                    have hch : ch = 'N' := by simpa using hc7
                    rw [hc7, if_pos rfl] at h
                    obtain ⟨hel, hvv⟩ := map_const_eq _ _ _ _ h
                    have hcs : cs = "aN".data ++ r := expectL_eq _ _ _ hel
                    subst hch
                    refine ⟨'N' :: "aN".data, ?_, ?_, ?_, ?_, ?_⟩
                    · rw [hcs]; rfl
                    · exact List.cons_ne_nil _ _
                    · rw [List.headD_cons]; decide
                    · decide
                    · intro t g ht hg
                      rw [hvv]
                      cases g with
                      | zero => simp at hg
                      | succ g2 =>
                        simp only [parseVal]
                        rw [List.cons_append]
                        unfold parseValCore
                        dsimp only
                        rw [if_neg (show ¬ (('N' == '"') = true) by decide)]
                        rw [if_neg (show ¬ (('N' == '[') = true) by decide)]
                        rw [if_neg (show ¬ (('N' == '{') = true) by decide)]
                        rw [if_neg (show ¬ (('N' == 't') = true) by decide)]
                        rw [if_neg (show ¬ (('N' == 'f') = true) by decide)]
                        rw [if_neg (show ¬ (('N' == 'n') = true) by decide)]
                        rw [if_pos (show (('N' == 'N') = true) from rfl)]
                        rw [expectL_self_append]
                        rfl
                  | false =>
                    rw [hc7, if_neg (by simp : ¬ (false = true))] at h
                    cases hc8 : ch == 'I' with
                    | true =>
                      have hch : ch = 'I' := by simpa using hc8
                      rw [hc8, if_pos rfl] at h
                      obtain ⟨hel, hvv⟩ := map_const_eq _ _ _ _ h
                      have hcs : cs = "nfinity".data ++ r := expectL_eq _ _ _ hel
                      subst hch
                      refine ⟨'I' :: "nfinity".data, ?_, ?_, ?_, ?_, ?_⟩
                      · rw [hcs]; rfl
                      · exact List.cons_ne_nil _ _
                      · rw [List.headD_cons]; decide
                      · decide
                      · intro t g ht hg
                        rw [hvv]
                        cases g with
                        | zero => simp at hg
                        | succ g2 =>
                          simp only [parseVal]
                          rw [List.cons_append]
                          unfold parseValCore
                          dsimp only
                          rw [if_neg (show ¬ (('I' == '"') = true) by decide)]
                          rw [if_neg (show ¬ (('I' == '[') = true) by decide)]
                          rw [if_neg (show ¬ (('I' == '{') = true) by decide)]
                          rw [if_neg (show ¬ (('I' == 't') = true) by decide)]
                          rw [if_neg (show ¬ (('I' == 'f') = true) by decide)]
                          rw [if_neg (show ¬ (('I' == 'n') = true) by decide)]
                          rw [if_neg (show ¬ (('I' == 'N') = true) by decide)]
                          rw [if_pos (show (('I' == 'I') = true) from rfl)]
                          rw [expectL_self_append]
                          rfl
                    | false =>
                      rw [hc8, if_neg (by simp : ¬ (false = true))] at h
                      cases hc9 : ch == '-' with
                      | true =>
                        have hch : ch = '-' := by simpa using hc9
                        rw [hc9, if_pos rfl] at h
                        cases hInf : expectL "Infinity".data cs with
                        | some r0 =>
                          rw [hInf] at h
                          dsimp only at h
                          simp only [Option.some.injEq, Prod.mk.injEq] at h
                          obtain ⟨hvv, hr⟩ := h
                          have hcs : cs = "Infinity".data ++ r0 := expectL_eq _ _ _ hInf
                          subst hch
                          refine ⟨'-' :: "Infinity".data, ?_, ?_, ?_, ?_, ?_⟩
                          · rw [hcs, ← hr]; rfl
                          · exact List.cons_ne_nil _ _
                          · rw [List.headD_cons]; decide
                          · decide
                          · intro t g ht hg
                            rw [← hvv]
                            cases g with
                            | zero => simp at hg
                            | succ g2 =>
                              simp only [parseVal]
                              rw [List.cons_append]
                              unfold parseValCore
                              dsimp only
                              rw [if_neg (show ¬ (('-' == '"') = true) by decide)]
                              rw [if_neg (show ¬ (('-' == '[') = true) by decide)]
                              rw [if_neg (show ¬ (('-' == '{') = true) by decide)]
                              rw [if_neg (show ¬ (('-' == 't') = true) by decide)]
                              rw [if_neg (show ¬ (('-' == 'f') = true) by decide)]
                              rw [if_neg (show ¬ (('-' == 'n') = true) by decide)]
                              rw [if_neg (show ¬ (('-' == 'N') = true) by decide)]
                              rw [if_neg (show ¬ (('-' == 'I') = true) by decide)]
                              rw [if_pos (show (('-' == '-') = true) from rfl)]
                              rw [expectL_self_append]
                        | none =>
                          rw [hInf] at h
                          dsimp only at h
                          obtain ⟨tok, hpn, hvv⟩ := map_out_eq _ JValue.jnum _ _ h
                          obtain ⟨hsplit, htokne, hheads, htoklast, hminus, hrepN⟩ :=
                            parseNum_spec _ _ _ hpn
                          have hch : ch = '-' := by simpa using hc9
                          subst hch
                          obtain ⟨x, xs, htokeq⟩ : ∃ x xs, tok = x :: xs := by
                            cases tok with
                            | nil => exact absurd rfl htokne
                            | cons a as => exact ⟨a, as, rfl⟩
                          have hsplit2 := hsplit
                          rw [htokeq, List.cons_append] at hsplit2
                          injection hsplit2 with hx hcs2
                          subst hx
                          have hxsdig : (xs.headD ' ').isDigit = true := by
                            rw [htokeq] at hminus
                            simp only [List.headD_cons, List.tail_cons] at hminus
                            exact hminus trivial
                          have hxsne : xs ≠ [] := by
                            intro he
                            rw [he] at hxsdig
                            exact absurd hxsdig (by decide)
                          obtain ⟨x2, xs2, hxs2⟩ : ∃ x2 xs2, xs = x2 :: xs2 := by
                            cases xs with
                            | nil => exact absurd rfl hxsne
                            | cons a as => exact ⟨a, as, rfl⟩
                          have hd2 : x2.isDigit = true := by
                            rw [hxs2, List.headD_cons] at hxsdig
                            exact hxsdig
                          refine ⟨tok, hsplit, htokne, ?_, pws_digit_false _ htoklast, ?_⟩
                          · rw [htokeq, List.headD_cons]; decide
                          · intro t g ht hg
                            rw [hvv]
                            cases g with
                            | zero =>
                              exfalso
                              have h0 := Nat.le_zero.mp hg
                              rw [List.length_eq_zero] at h0
                              exact htokne h0
                            | succ g2 =>
                              simp only [parseVal]
                              rw [htokeq, List.cons_append]
                              unfold parseValCore
                              dsimp only
                              rw [if_neg (show ¬ (('-' == '"') = true) by decide)]
                              rw [if_neg (show ¬ (('-' == '[') = true) by decide)]
                              rw [if_neg (show ¬ (('-' == '{') = true) by decide)]
                              rw [if_neg (show ¬ (('-' == 't') = true) by decide)]
                              rw [if_neg (show ¬ (('-' == 'f') = true) by decide)]
                              rw [if_neg (show ¬ (('-' == 'n') = true) by decide)]
                              rw [if_neg (show ¬ (('-' == 'N') = true) by decide)]
                              rw [if_neg (show ¬ (('-' == 'I') = true) by decide)]
                              rw [if_pos (show (('-' == '-') = true) from rfl)]
                              have hInfRep : expectL "Infinity".data (xs ++ t) = none := by
                                rw [hxs2, List.cons_append]
                                unfold expectL
                                rw [show "Infinity".data = 'I' :: "nfinity".data from rfl]
                                rw [isPrefixOf_cons_cons]
                                rw [beq_digit_right_false 'I' x2 hd2 (by decide)]
                                rw [Bool.false_and]
                                rw [if_neg (by simp : ¬ (false = true))]
                              rw [hInfRep]
                              dsimp only
                              rw [← List.cons_append, ← htokeq]
                              rw [hrepN t ht]
                              rfl
                      | false =>
                        rw [hc9, if_neg (by simp : ¬ (false = true))] at h
                        obtain ⟨tok, hpn, hvv⟩ := map_out_eq _ JValue.jnum _ _ h
                        obtain ⟨hsplit, htokne, hheads, htoklast, hminus, hrepN⟩ :=
                          parseNum_spec _ _ _ hpn
                        obtain ⟨x, xs, htokeq⟩ : ∃ x xs, tok = x :: xs := by
                          cases tok with
                          | nil => exact absurd rfl htokne
                          | cons a as => exact ⟨a, as, rfl⟩
                        have hsplit2 := hsplit
                        rw [htokeq, List.cons_append] at hsplit2
                        injection hsplit2 with hx hcs2
                        subst hx
                        have hchdig : ch.isDigit = true := by
                          rcases hheads with hh | hh
                          · rw [htokeq, List.headD_cons] at hh
                            rw [hh] at hc9
                            exact absurd hc9 (by decide)
                          · rw [htokeq, List.headD_cons] at hh
                            exact hh
                        refine ⟨tok, hsplit, htokne, ?_, pws_digit_false _ htoklast, ?_⟩
                        · rw [htokeq, List.headD_cons]
                          exact pws_digit_false _ hchdig
                        · intro t g ht hg
                          rw [hvv]
                          cases g with
                          | zero =>
                            exfalso
                            have h0 := Nat.le_zero.mp hg
                            rw [List.length_eq_zero] at h0
                            exact htokne h0
                          | succ g2 =>
                            simp only [parseVal]
                            rw [htokeq, List.cons_append]
                            unfold parseValCore
                            dsimp only
                            rw [hc1, if_neg (by simp : ¬ (false = true))]
                            rw [hc2, if_neg (by simp : ¬ (false = true))]
                            rw [hc3, if_neg (by simp : ¬ (false = true))]
                            rw [hc4, if_neg (by simp : ¬ (false = true))]
                            rw [hc5, if_neg (by simp : ¬ (false = true))]
                            rw [hc6, if_neg (by simp : ¬ (false = true))]
                            rw [hc7, if_neg (by simp : ¬ (false = true))]
                            rw [hc8, if_neg (by simp : ¬ (false = true))]
                            rw [hc9, if_neg (by simp : ¬ (false = true))]
                            rw [← List.cons_append, ← htokeq]
                            rw [hrepN t ht]
                            rfl

theorem json_loads_strip_pad (j : List Char) (v : JValue) (h : json_loads j = some v) :
    json_loads (pystrip ('\n' :: (j ++ ['\n']))) = some v := by
  unfold json_loads at h
  cases hp : parseVal (j.length + 1) (j.dropWhile jws) with
  | none => rw [hp] at h; exact Option.noConfusion h
  | some pr =>
    obtain ⟨v0, rest⟩ := pr
    rw [hp] at h
    dsimp only at h
    cases hemp : (rest.dropWhile jws).isEmpty with
    | false =>
      rw [hemp, if_neg (by simp : ¬ (false = true))] at h
      exact Option.noConfusion h
    | true =>
      rw [hemp, if_pos rfl] at h
      simp only [Option.some.injEq] at h
      obtain ⟨cL, hsplit, hcne, hhead, hlast, hrep⟩ := parseVal_spec _ _ _ _ hp
      have hrestall : ∀ x ∈ rest, jws x = true := by
        have hnil : rest.dropWhile jws = [] := by
          cases hq : rest.dropWhile jws with
          | nil => rfl
          | cons a as => rw [hq] at hemp; exact Bool.noConfusion hemp
        exact fun x hx => List.dropWhile_eq_nil_iff.mp hnil x hx
      obtain ⟨tk, htkall, hjsplit⟩ :
          ∃ tk, (∀ x ∈ tk, jws x = true) ∧ j = tk ++ (cL ++ rest) := by
        refine ⟨j.takeWhile jws, takeWhile_all jws j, ?_⟩
        conv_lhs => rw [← List.takeWhile_append_dropWhile (p := jws) (l := j)]
        rw [hsplit]
      have hstrip : pystrip ('\n' :: (j ++ ['\n'])) = cL := by
        have hs := pystrip_sandwich ('\n' :: tk) cL (rest ++ ['\n']) ?_ ?_ hhead hlast
        · rw [← hs]
          congr 1
          rw [hjsplit]
          simp [List.append_assoc]
        · intro x hx
          rcases List.mem_cons.mp hx with rfl | hx2
          · decide
          · exact jws_imp_pws x (htkall x hx2)
        · intro x hx
          rcases List.mem_append.mp hx with hx2 | hx2
          · exact jws_imp_pws x (hrestall x hx2)
          · rw [List.mem_singleton.mp hx2]
            decide
      rw [hstrip]
      unfold json_loads
      have hdw : cL.dropWhile jws = cL :=
        dropWhile_of_headD_neg jws cL (Or.inr (pws_false_imp_jws _ hhead))
      rw [hdw]
      have hfin := hrep [] (cL.length + 1) extOk_nil (by omega)
      rw [List.append_nil] at hfin
      rw [hfin]
      dsimp only
      rw [h]
      rfl

/-- Counterexample to claim C3 as stated: the text `"```"` (a JSON string
containing a backtick fence) is valid JSON parsing to the three-backtick
string, but wrapping it in code fences and normalizing parses to the empty
string instead, because `.replace` deletes every triple-backtick occurrence,
including ones inside the JSON payload.  So the round trip
`strip_and_parse(fence_wrap(j)) = parse(j)` fails for this valid JSON `j`. -/
theorem c3_counterexample :
    json_loads "\"```\"".data = some (JValue.jstr "```".data) ∧
    json_loads (normalizeCompletion (fence_wrap "\"```\"".data)) =
      some (JValue.jstr []) ∧
    JValue.jstr "```".data ≠ JValue.jstr [] := by
  refine ⟨rfl, rfl, fun he => ?_⟩
  injection he with h2
  exact absurd h2 (by decide)

/-- Claim C3 (amended): for every valid JSON text `j` that does not itself
contain a triple-backtick fence, normalizing the fence-wrapped completion
`fence_wrap j` and parsing yields exactly the value obtained by parsing `j`
directly: `strip_and_parse(fence_wrap(j)) = parse(j)`. -/
theorem c3_round_trip (j : List Char) (v : JValue)
    (hj : json_loads j = some v) (hfence : containsSub "```".data j = false) :
    json_loads (normalizeCompletion (fence_wrap j)) = some v := by
  rw [normalize_fence_wrap j hfence]
  exact json_loads_strip_pad j v hj

/-- Witness for C3 (amended) at the valid JSON text `[1, 2]`: the
fence-wrapped completion normalizes and parses back to the same value. -/
theorem c3_round_trip_witness :
    json_loads "[1, 2]".data =
      some (JValue.jarr [JValue.jnum ['1'], JValue.jnum ['2']]) ∧
    containsSub "```".data "[1, 2]".data = false ∧
    json_loads (normalizeCompletion (fence_wrap "[1, 2]".data)) =
      some (JValue.jarr [JValue.jnum ['1'], JValue.jnum ['2']]) :=
  ⟨rfl, rfl, c3_round_trip "[1, 2]".data _ rfl rfl⟩
